import Mathlib

/-! A shallow embedding, in Lean 4, of the FlatBuffers IDL schema/value parser
(`src/idl_parser.cpp`, 2014 tree): the data model and the operations the
specification claims are about, together with the theorems settling the claims.

Conventions used throughout the embedding:
* C++ `std::string` textual constants that are only ever produced by
  `NumToString` and consumed by `atoi`/`StringToInt` are represented directly
  by their integer value (`Int`); the round-trip through decimal text is the
  identity on the values involved.
* int64 arithmetic and bitwise operations are represented on `Int`; bitwise
  `&`, `|`, `~` on in-range int64 values agree with the mathematical
  two's-complement operations `Int.land`, `Int.lor`, `Int.lnot`.
* The throwing `Error(msg)` helper is represented by `Except String`;
  the first error aborts the computation, as in the source.
-/

namespace Flat

/-- Base types of the IDL type system: the C enum `BaseType` generated by
`FLATBUFFERS_GEN_TYPES` in `idl.h`, in declaration order. -/
inductive BaseType where
  | NONE | UTYPE | BOOL | CHAR | UCHAR | SHORT | USHORT
  | INT | UINT | LONG | ULONG | FLOAT | DOUBLE
  | STRING | VECTOR | STRUCT | UNION
  deriving DecidableEq, Repr

/-- Modelled from the spec: the ordinal of a base type in declaration order
(the value of the C enum constant `BASE_TYPE_*`), used by the range tests
`IsScalar` / `IsInteger` / `IsFloat`. -/
def BaseType.ord : BaseType → Nat
  | .NONE => 0 | .UTYPE => 1 | .BOOL => 2 | .CHAR => 3 | .UCHAR => 4
  | .SHORT => 5 | .USHORT => 6 | .INT => 7 | .UINT => 8 | .LONG => 9
  | .ULONG => 10 | .FLOAT => 11 | .DOUBLE => 12 | .STRING => 13
  | .VECTOR => 14 | .STRUCT => 15 | .UNION => 16

/-- Modelled from the spec: `SizeOf` (the `kTypeSizes` table, `sizeof(CTYPE)`
per base type): §3.1 gives the scalar widths 8/16/32/64 bits, bool/byte-sized
tag types, and §6.3 makes every pointer type a 32-bit offset. -/
def SizeOf : BaseType → Nat
  | .NONE => 1 | .UTYPE => 1 | .BOOL => 1 | .CHAR => 1 | .UCHAR => 1
  | .SHORT => 2 | .USHORT => 2 | .INT => 4 | .UINT => 4 | .LONG => 8
  | .ULONG => 8 | .FLOAT => 4 | .DOUBLE => 8
  | .STRING => 4 | .VECTOR => 4 | .STRUCT => 4 | .UNION => 4

/-- Modelled from the spec: `IsScalar` — base types from `UTYPE` to `DOUBLE`. -/
def IsScalar (t : BaseType) : Bool :=
  decide (BaseType.UTYPE.ord ≤ t.ord) && decide (t.ord ≤ BaseType.DOUBLE.ord)

/-- Modelled from the spec: `IsInteger` — base types from `UTYPE` to `ULONG`. -/
def IsInteger (t : BaseType) : Bool :=
  decide (BaseType.UTYPE.ord ≤ t.ord) && decide (t.ord ≤ BaseType.ULONG.ord)

/-- Modelled from the spec: `IsFloat` — `FLOAT` or `DOUBLE`. -/
def IsFloat (t : BaseType) : Bool :=
  decide (t = BaseType.FLOAT) || decide (t = BaseType.DOUBLE)

/-- Modelled from the spec: `FieldIndexToOffset` — vtable slot `i` is stored at
voffset `(i + 2) * sizeof(voffset_t)`: §6.3 specifies 16-bit vtable slots
prefixed by the vtable size and the object size (two extra slots). -/
def FieldIndexToOffset (i : Nat) : Nat := (i + 2) * 2

/-- The apostrophe character, used to spell source error messages. -/
def apos : String := String.singleton (Char.ofNat 39)

/-- Modelled from the spec: `PaddingBytes buf_size scalar_size` — the number of
bytes needed to pad `buf_size` up to a multiple of the (power of two)
`scalar_size` (§4.4 "aligns `bytesize` up to the field's inline alignment",
§3.2 "`bytesize` is padded to `minalign`"). -/
def PaddingBytes (bufSize scalarSize : Nat) : Nat :=
  (scalarSize - bufSize % scalarSize) % scalarSize

/-- One parsed field of a table or struct: `FieldDef`, restricted to the
components the claims are about.  `value.offset` is `offset`; the textual
constant of the `id` attribute (when present) is represented by its integer
value in `id?`; `size` and `align` are the inline size and alignment of the
field's declared type. -/
structure FieldF where
  name : String
  offset : Nat
  size : Nat
  align : Nat
  padding : Nat := 0
  id? : Option Int := none
  deriving DecidableEq, Repr

/-- A `StructDef` restricted to the components the claims are about: the
`fixed` flag (struct vs table), the running `minalign` / `bytesize` of a
fixed struct, and the insertion-ordered field list. -/
structure StructDefM where
  fixed : Bool
  minalign : Nat := 1
  bytesize : Nat := 0
  fields : List FieldF := []
  deriving DecidableEq, Repr

/-- Set the `padding` of the last field of the list (the effect of
`fields.vec.back()->padding = padding` inside `PadLastField`). -/
def setLastPadding : List FieldF → Nat → List FieldF
  | [], _ => []
  | [f], p => [{ f with padding := p }]
  | f :: g :: fs, p => f :: setLastPadding (g :: fs) p

/-- Modelled from the spec: `StructDef::PadLastField(minalign)` — pad
`bytesize` up to a multiple of `minalign`, recording the padding on the
previous (= currently last) field (§4.4). -/
def PadLastField (sd : StructDefM) (minalign : Nat) : StructDefM :=
  let padding := PaddingBytes sd.bytesize minalign
  { sd with bytesize := sd.bytesize + padding,
            fields := setLastPadding sd.fields padding }

/-- `Parser::AddField`: create the field with the vtable offset determined by
its position; for a fixed struct, raise `minalign`, pad the previous field to
this field's alignment, place the field at the padded `bytesize` and grow
`bytesize` by its size; finally add it to the field symbol table, failing if
the name already exists. -/
def AddField (sd : StructDefM) (name : String) (size align : Nat)
    (id? : Option Int := none) : Except String StructDefM :=
  let f : FieldF :=
    { name := name, offset := FieldIndexToOffset sd.fields.length,
      size := size, align := align, id? := id? }
  let (sd, f) :=
    if sd.fixed then
      let sd := { sd with minalign := max sd.minalign align }
      let sd := PadLastField sd align
      ({ sd with bytesize := sd.bytesize + size }, { f with offset := sd.bytesize })
    else (sd, f)
  if sd.fields.any (fun g => g.name = name) then
    .error ("field already exists: " ++ name)
  else
    .ok { sd with fields := sd.fields ++ [f] }

/-- The field-declaration loop of `ParseDecl` for a fixed struct: each
declaration carries the field's name and the inline size and alignment of its
type; fields are added in order by `AddField`. -/
def addFields (sd : StructDefM) : List (String × Nat × Nat) → Except String StructDefM
  | [] => .ok sd
  | (n, sz, al) :: rest =>
    match AddField sd n sz al with
    | .error e => .error e
    | .ok sd' => addFields sd' rest

/-- The `force_align` error message of `ParseDecl` (verbatim, including the
missing space of the source string literal). -/
def forceAlignMsg : String :=
  "force_align must be a power of two integer ranging from the" ++
  "struct" ++ apos ++ "s natural alignment to 256"

/-- The epilogue of `ParseDecl` for a fixed struct: validate an optional
`force_align` attribute (integer, power of two, between the natural alignment
and 256) and raise `minalign` to it, then pad `bytesize` to `minalign`. -/
def finishStruct (sd : StructDefM) (forceAlign : Option Nat) : Except String StructDefM :=
  match forceAlign with
  | some a =>
    if a < sd.minalign ∨ 256 < a ∨ a.land (a - 1) ≠ 0 then .error forceAlignMsg
    else .ok (PadLastField { sd with minalign := a } a)
  | none => .ok (PadLastField sd sd.minalign)

/-- `ParseDecl` on a `struct` (`fixed = true`) declaration body: add every
field, then apply the `force_align` / final padding epilogue. -/
def parseStructBody (decls : List (String × Nat × Nat)) (forceAlign : Option Nat) :
    Except String StructDefM :=
  match addFields { fixed := true } decls with
  | .error e => .error e
  | .ok sd => finishStruct sd forceAlign

/-- One field declaration as consumed by `ParseField`: its name, the base type
of its declared type, and the inline size and alignment of that type. -/
structure FieldDecl where
  name : String
  base : BaseType
  size : Nat
  align : Nat
  deriving DecidableEq, Repr

/-- The field-insertion step of `ParseField`: for a union-typed field, first
add the auto-generated `name ++ "_type"` sibling holding the enum's underlying
(`UTYPE`, one byte) type, then add the field itself. -/
def parseFieldInsert (sd : StructDefM) (d : FieldDecl) : Except String StructDefM :=
  match (if d.base = BaseType.UNION then
           AddField sd (d.name ++ "_type") (SizeOf BaseType.UTYPE) (SizeOf BaseType.UTYPE)
         else .ok sd) with
  | .error e => .error e
  | .ok sd' => AddField sd' d.name d.size d.align

/-- The field-declaration loop of `ParseDecl`, field-name view: run
`parseFieldInsert` over the declarations in order. -/
def parseFieldList (sd : StructDefM) : List FieldDecl → Except String StructDefM
  | [] => .ok sd
  | d :: rest =>
    match parseFieldInsert sd d with
    | .error e => .error e
    | .ok sd' => parseFieldList sd' rest

/-- The names `ParseField` enters into the field symbol table for one
declaration: a union field contributes its `_type` sibling first, then itself;
every other field contributes just its name. -/
def declNames (d : FieldDecl) : List String :=
  if d.base = BaseType.UNION then [d.name ++ "_type", d.name] else [d.name]

/-- All names entered into the field symbol table for a declaration list. -/
def expandedNames (decls : List FieldDecl) : List String :=
  decls.flatMap declNames

/-! ### Layout lemmas (claim C2) -/

theorem paddingBytes_mod (b a : Nat) (ha : 0 < a) : (b + PaddingBytes b a) % a = 0 := by
  have hr : b % a < a := Nat.mod_lt _ ha
  rcases Nat.eq_zero_or_pos (b % a) with h | h
  · have h1 : PaddingBytes b a = 0 := by
      unfold PaddingBytes; rw [h, Nat.sub_zero, Nat.mod_self]
    rw [h1, Nat.add_zero]; exact h
  · have h1 : PaddingBytes b a = a - b % a := by
      unfold PaddingBytes; exact Nat.mod_eq_of_lt (by omega)
    rw [h1, Nat.add_mod, Nat.mod_eq_of_lt (show a - b % a < a by omega),
      show b % a + (a - b % a) = a by omega, Nat.mod_self]

/-- The projection of a field to the data `PadLastField` leaves unchanged. -/
def oal (f : FieldF) : String × Nat × Nat × Nat × Option Int :=
  (f.name, f.offset, f.size, f.align, f.id?)

theorem setLastPadding_map_oal (l : List FieldF) (p : Nat) :
    (setLastPadding l p).map oal = l.map oal := by
  induction l with
  | nil => rfl
  | cons f fs ih =>
    cases fs with
    | nil => rfl
    | cons g fs' => simpa [setLastPadding] using ih

theorem mem_setLastPadding (l : List FieldF) (p : Nat) {f : FieldF}
    (hf : f ∈ setLastPadding l p) :
    ∃ g ∈ l, g.name = f.name ∧ g.offset = f.offset ∧ g.size = f.size ∧
      g.align = f.align ∧ g.id? = f.id? := by
  have h1 : oal f ∈ (setLastPadding l p).map oal := List.mem_map_of_mem oal hf
  rw [setLastPadding_map_oal] at h1
  obtain ⟨g, hg, hgf⟩ := List.mem_map.1 h1
  exact ⟨g, hg, congrArg (·.1) hgf, congrArg (·.2.1) hgf, congrArg (·.2.2.1) hgf,
    congrArg (·.2.2.2.1) hgf, congrArg (·.2.2.2.2) hgf⟩

/-- The layout invariant maintained by `AddField` on a fixed struct. -/
def layoutInv (sd : StructDefM) : Prop :=
  0 < sd.minalign ∧
  (∀ f ∈ sd.fields, 0 < f.align ∧ f.offset % f.align = 0 ∧
    f.offset + f.size ≤ sd.bytesize) ∧
  List.Chain' (fun f g => f.offset + f.size ≤ g.offset) sd.fields

theorem chain'_setLastPadding (l : List FieldF) (p : Nat)
    (h : List.Chain' (fun f g => f.offset + f.size ≤ g.offset) l) :
    List.Chain' (fun f g => f.offset + f.size ≤ g.offset) (setLastPadding l p) := by
  have hmap := setLastPadding_map_oal l p
  have h1 : List.Chain' (fun s t => s.2.1 + s.2.2.1 ≤ t.2.1) (l.map oal) := by
    rw [List.chain'_map]; exact h
  rw [← hmap, List.chain'_map] at h1
  exact h1

theorem padLastField_inv (sd : StructDefM) (a : Nat) (h : layoutInv sd) :
    layoutInv (PadLastField sd a) ∧
    (PadLastField sd a).minalign = sd.minalign ∧
    (PadLastField sd a).bytesize = sd.bytesize + PaddingBytes sd.bytesize a := by
  obtain ⟨h1, h2, h3⟩ := h
  refine ⟨⟨h1, ?_, chain'_setLastPadding _ _ h3⟩, rfl, rfl⟩
  intro f hf
  obtain ⟨g, hg, _, ho, hs, ha, _⟩ := mem_setLastPadding sd.fields _ hf
  obtain ⟨hga, hgo, hgb⟩ := h2 g hg
  rw [← ho, ← hs, ← ha]
  exact ⟨hga, hgo, le_trans hgb (Nat.le_add_right _ _)⟩

theorem addField_fixed_ok (sd : StructDefM) (n : String) (sz al : Nat) (id? : Option Int)
    (hfix : sd.fixed = true) (hal : 0 < al) (h : layoutInv sd) :
    ∀ sd', AddField sd n sz al id? = .ok sd' →
      layoutInv sd' ∧ sd'.fixed = true ∧ sd'.minalign = max sd.minalign al ∧
      sd.bytesize ≤ sd'.bytesize := by
  obtain ⟨fx, mi, bs, fl⟩ := sd
  cases hfix
  intro sd' hok
  unfold AddField at hok
  simp only [if_true] at hok
  split at hok
  · cases hok
  · obtain ⟨hI, hmin, hbytes⟩ :=
      padLastField_inv { fixed := true, minalign := max mi al, bytesize := bs, fields := fl } al
        ⟨lt_of_lt_of_le h.1 (le_max_left _ _), h.2.1, h.2.2⟩
    set sd₂ :=
      PadLastField { fixed := true, minalign := max mi al, bytesize := bs, fields := fl } al
      with hsd₂
    cases hok
    obtain ⟨hI1, hI2, hI3⟩ := hI
    have hoff : sd₂.bytesize % al = 0 := by
      rw [hbytes]; exact paddingBytes_mod _ _ hal
    refine ⟨⟨hI1, ?_, ?_⟩, rfl, hmin, ?_⟩
    · intro f hf
      rcases List.mem_append.1 hf with hf | hf
      · obtain ⟨hfa, hfo, hfb⟩ := hI2 f hf
        exact ⟨hfa, hfo, le_trans hfb (Nat.le_add_right _ _)⟩
      · rw [List.mem_singleton.1 hf]
        exact ⟨hal, hoff, le_refl _⟩
    · rw [List.chain'_append]
      refine ⟨hI3, List.chain'_singleton _, ?_⟩
      intro x hx y hy
      rw [List.head?_cons, Option.mem_def, Option.some.injEq] at hy
      have hxm : x ∈ sd₂.fields := List.mem_of_mem_getLast? hx
      have := (hI2 x hxm).2.2
      rw [← hy]
      exact this
    · exact le_trans (Nat.le_add_right _ _) (Nat.le_add_right _ _)

theorem addFields_inv (decls : List (String × Nat × Nat)) :
    ∀ sd, sd.fixed = true → layoutInv sd → (∀ d ∈ decls, 0 < d.2.2) →
      ∀ sd', addFields sd decls = .ok sd' →
        layoutInv sd' ∧ sd'.fixed = true ∧
        sd'.minalign = decls.foldl (fun m d => max m d.2.2) sd.minalign := by
  induction decls with
  | nil =>
    intro sd hfix hI _ sd' hok
    cases hok
    exact ⟨hI, hfix, rfl⟩
  | cons d rest ih =>
    intro sd hfix hI hpos sd' hok
    obtain ⟨n, sz, al⟩ := d
    unfold addFields at hok
    cases hAdd : AddField sd n sz al none with
    | error e => rw [hAdd] at hok; cases hok
    | ok sd₁ =>
      rw [hAdd] at hok
      have hal : 0 < al := hpos (n, sz, al) (List.mem_cons_self _ _)
      obtain ⟨hI₁, hfix₁, hmin₁, _⟩ := addField_fixed_ok sd n sz al none hfix hal hI sd₁ hAdd
      obtain ⟨hI', hfix', hmin'⟩ :=
        ih sd₁ hfix₁ hI₁ (fun d hd => hpos d (List.mem_cons_of_mem _ hd)) sd' hok
      refine ⟨hI', hfix', ?_⟩
      rw [hmin', hmin₁]
      rfl

theorem finishStruct_ok (sd : StructDefM) (fa : Option Nat) (hI : layoutInv sd) :
    ∀ sd', finishStruct sd fa = .ok sd' →
      layoutInv sd' ∧ sd'.bytesize % sd'.minalign = 0 ∧
      sd'.minalign = (match fa with | none => sd.minalign | some a => a) := by
  intro sd' hok
  cases fa with
  | none =>
    simp only [finishStruct] at hok
    cases hok
    obtain ⟨h1, h2, h3⟩ := padLastField_inv sd sd.minalign hI
    exact ⟨h1, by rw [h3, h2]; exact paddingBytes_mod _ _ hI.1, h2⟩
  | some a =>
    simp only [finishStruct] at hok
    split at hok
    · cases hok
    · rename_i hcond
      cases hok
      push_neg at hcond
      have ha : 0 < a := lt_of_lt_of_le hI.1 hcond.1
      obtain ⟨h1, h2, h3⟩ :=
        padLastField_inv { sd with minalign := a } a ⟨ha, hI.2.1, hI.2.2⟩
      exact ⟨h1, by rw [h3, h2]; exact paddingBytes_mod _ _ ha, h2⟩

/-- **C2**: every struct (`fixed = true`) declaration that parses successfully
yields a `StructDef` in which `bytesize` is a multiple of `minalign`, each
field's offset is a multiple of that field's inline alignment, each field
starts no earlier than the end of the previous field, and `minalign` is the
maximum inline alignment over the fields (1 for the empty struct), replaced by
the `force_align` value when that attribute is present and valid. -/
theorem c2_struct_layout (decls : List (String × Nat × Nat)) (fa : Option Nat)
    (hpos : ∀ d ∈ decls, 0 < d.2.2) :
    ∀ sd, parseStructBody decls fa = .ok sd →
      sd.bytesize % sd.minalign = 0 ∧
      (∀ f ∈ sd.fields, f.offset % f.align = 0) ∧
      List.Chain' (fun f g => f.offset + f.size ≤ g.offset) sd.fields ∧
      sd.minalign = (match fa with
        | none => decls.foldl (fun m d => max m d.2.2) 1
        | some a => a) := by
  intro sd hok
  unfold parseStructBody at hok
  cases hAdd : addFields { fixed := true } decls with
  | error e => rw [hAdd] at hok; cases hok
  | ok sd₁ =>
    rw [hAdd] at hok
    have hInit : layoutInv { fixed := true } :=
      ⟨Nat.one_pos, fun f hf => absurd hf (List.not_mem_nil f), List.chain'_nil⟩
    obtain ⟨hI₁, _, hmin₁⟩ := addFields_inv decls _ rfl hInit hpos sd₁ hAdd
    obtain ⟨hI, hmod, hminf⟩ := finishStruct_ok sd₁ fa hI₁ sd hok
    refine ⟨hmod, fun f hf => (hI.2.1 f hf).2.1, hI.2.2, ?_⟩
    cases fa with
    | none => rw [hminf]; exact hmin₁
    | some a => exact hminf

/-- Witness for C2 at the spec's struct-alignment scenario
(`struct S \x7b x:byte; y:int; \x7d`): `minalign = 4`, aligned offsets,
non-overlapping fields, `bytesize` padded to a multiple of 4. -/
theorem c2_struct_layout_witness :
    ∃ sd, parseStructBody [("x", 1, 1), ("y", 4, 4)] none = .ok sd ∧
      sd.bytesize % sd.minalign = 0 ∧
      (∀ f ∈ sd.fields, f.offset % f.align = 0) ∧
      List.Chain' (fun f g => f.offset + f.size ≤ g.offset) sd.fields ∧
      sd.minalign = 4 := by
  have h := c2_struct_layout [("x", 1, 1), ("y", 4, 4)] none (by decide) _ rfl
  exact ⟨_, rfl, h.1, h.2.1, h.2.2.1, h.2.2.2⟩

/-! ### Duplicate field names (claim C10) -/

theorem setLastPadding_map_name (l : List FieldF) (p : Nat) :
    (setLastPadding l p).map (fun f => f.name) = l.map (fun f => f.name) := by
  have h := congrArg (List.map (fun t => t.1)) (setLastPadding_map_oal l p)
  simpa [List.map_map, Function.comp, oal] using h

theorem any_name_eq (l : List FieldF) (n : String) :
    (l.any fun g => g.name = n) = ((l.map fun f => f.name).any fun s => s = n) := by
  induction l with
  | nil => rfl
  | cons f fs ih => simp [List.any_cons, ih]

theorem addField_spec (sd : StructDefM) (n : String) (sz al : Nat) (id? : Option Int) :
    ((AddField sd n sz al id?).isOk = true ↔
      ((sd.fields.map fun f => f.name).any fun s => s = n) = false) ∧
    (∀ sd', AddField sd n sz al id? = .ok sd' →
      sd'.fields.map (fun f => f.name) = sd.fields.map (fun f => f.name) ++ [n] ∧
      sd'.fixed = sd.fixed) ∧
    (∀ e, AddField sd n sz al id? = .error e → e = "field already exists: " ++ n) := by
  obtain ⟨fx, mi, bs, fl⟩ := sd
  unfold AddField
  cases fx with
  | false =>
    simp only [Bool.false_eq_true, if_false]
    by_cases hany : (fl.any fun g => g.name = n) = true
    · rw [if_pos hany]
      refine ⟨?_, ?_, ?_⟩
      · simp only [Except.isOk, Except.toBool]
        constructor
        · intro h; cases h
        · intro h; rw [any_name_eq] at hany; rw [hany] at h; cases h
      · intro sd' h; cases h
      · intro e h; cases h; rfl
    · rw [if_neg hany]
      refine ⟨?_, ?_, ?_⟩
      · simp only [Except.isOk, Except.toBool, true_iff]
        rw [← any_name_eq]; exact Bool.not_eq_true _ |>.mp hany
      · intro sd' h
        cases h
        exact ⟨List.map_append _ _ _, rfl⟩
      · intro e h; cases h
  | true =>
    simp only [if_true]
    by_cases hany : (fl.any fun g => g.name = n) = true
    · have hany' :
        ((PadLastField { fixed := true, minalign := max mi al, bytesize := bs, fields := fl } al).fields.any fun g => g.name = n) = true := by
        rw [any_name_eq, PadLastField]
        dsimp only
        rw [setLastPadding_map_name, ← any_name_eq]
        exact hany
      rw [if_pos hany']
      refine ⟨?_, ?_, ?_⟩
      · simp only [Except.isOk, Except.toBool]
        constructor
        · intro h; cases h
        · intro h; rw [any_name_eq] at hany; rw [hany] at h; cases h
      · intro sd' h; cases h
      · intro e h; cases h; rfl
    · have hany' :
        ((PadLastField { fixed := true, minalign := max mi al, bytesize := bs, fields := fl } al).fields.any fun g => g.name = n) = false := by
        rw [any_name_eq, PadLastField]
        dsimp only
        rw [setLastPadding_map_name, ← any_name_eq]
        exact Bool.not_eq_true _ |>.mp hany
      rw [if_neg (by rw [hany']; exact Bool.false_ne_true)]
      refine ⟨?_, ?_, ?_⟩
      · simp only [Except.isOk, Except.toBool, true_iff]
        rw [← any_name_eq]; exact Bool.not_eq_true _ |>.mp hany
      · intro sd' h
        cases h
        constructor
        · dsimp only
          rw [List.map_append, PadLastField]
          dsimp only
          rw [setLastPadding_map_name]
          rfl
        · rfl
      · intro e h; cases h

theorem nodup_append_singleton {l : List String} {n : String} (h : l.Nodup) :
    (l ++ [n]).Nodup ↔ n ∉ l := by
  rw [List.nodup_append]
  simp [h]

theorem any_eq_name_false_iff (l : List String) (n : String) :
    ((l.any fun s => s = n) = false) ↔ n ∉ l := by
  rw [← Bool.not_eq_true, List.any_eq_true]
  simp [eq_comm]

theorem parseFieldInsert_spec (sd : StructDefM) (d : FieldDecl)
    (hnd : (sd.fields.map fun f => f.name).Nodup) :
    ((parseFieldInsert sd d).isOk = true ↔
      (sd.fields.map (fun f => f.name) ++ declNames d).Nodup) ∧
    (∀ sd', parseFieldInsert sd d = .ok sd' →
      sd'.fields.map (fun f => f.name) = sd.fields.map (fun f => f.name) ++ declNames d ∧
      sd'.fixed = sd.fixed) ∧
    (∀ e, parseFieldInsert sd d = .error e → ∃ n, e = "field already exists: " ++ n) := by
  unfold parseFieldInsert declNames
  by_cases hU : d.base = BaseType.UNION
  · rw [if_pos hU, if_pos hU]
    cases hA : AddField sd (d.name ++ "_type") (SizeOf BaseType.UTYPE) (SizeOf BaseType.UTYPE)
        none with
    | error e =>
      obtain ⟨hA1, _, hA3⟩ := addField_spec sd (d.name ++ "_type")
        (SizeOf BaseType.UTYPE) (SizeOf BaseType.UTYPE) none
      have hnm : (d.name ++ "_type") ∈ sd.fields.map fun f => f.name := by
        by_contra hnot
        have : (AddField sd (d.name ++ "_type") (SizeOf BaseType.UTYPE)
            (SizeOf BaseType.UTYPE) none).isOk = true :=
          hA1.mpr ((any_eq_name_false_iff _ _).mpr hnot)
        rw [hA] at this
        cases this
      refine ⟨?_, ?_, ?_⟩
      · constructor
        · intro h; cases h
        · intro h
          exfalso
          rw [show sd.fields.map (fun f => f.name) ++ [d.name ++ "_type", d.name] =
            (sd.fields.map (fun f => f.name) ++ [d.name ++ "_type"]) ++ [d.name] by
              simp] at h
          have h2 := h.sublist (List.sublist_append_left _ _)
          exact ((nodup_append_singleton hnd).mp h2) hnm
      · intro sd' h; cases h
      · intro e' h
        cases h
        exact ⟨_, hA3 e hA⟩
    | ok sd₁ =>
      obtain ⟨hA1, hA2, _⟩ := addField_spec sd (d.name ++ "_type")
        (SizeOf BaseType.UTYPE) (SizeOf BaseType.UTYPE) none
      obtain ⟨hN1, hFx1⟩ := hA2 sd₁ hA
      have hnm : (d.name ++ "_type") ∉ sd.fields.map fun f => f.name := by
        have : (AddField sd (d.name ++ "_type") (SizeOf BaseType.UTYPE)
            (SizeOf BaseType.UTYPE) none).isOk = true := by rw [hA]; rfl
        exact (any_eq_name_false_iff _ _).mp (hA1.mp this)
      have hnd₁ : (sd₁.fields.map fun f => f.name).Nodup := by
        rw [hN1]
        exact (nodup_append_singleton hnd).mpr hnm
      obtain ⟨hB1, hB2, hB3⟩ := addField_spec sd₁ d.name d.size d.align none
      refine ⟨?_, ?_, ?_⟩
      · rw [hB1, any_eq_name_false_iff, hN1,
          show sd.fields.map (fun f => f.name) ++ [d.name ++ "_type", d.name] =
            (sd.fields.map (fun f => f.name) ++ [d.name ++ "_type"]) ++ [d.name] by simp,
          nodup_append_singleton (hN1 ▸ hnd₁)]
      · intro sd' h
        obtain ⟨hN2, hFx2⟩ := hB2 sd' h
        refine ⟨?_, hFx2.trans hFx1⟩
        rw [hN2, hN1]
        simp
      · intro e h
        exact ⟨_, hB3 e h⟩
  · rw [if_neg hU, if_neg hU]
    obtain ⟨hA1, hA2, hA3⟩ := addField_spec sd d.name d.size d.align none
    refine ⟨?_, ?_, ?_⟩
    · rw [hA1, any_eq_name_false_iff, nodup_append_singleton hnd]
    · exact hA2
    · intro e h
      exact ⟨_, hA3 e h⟩

theorem parseFieldList_spec (decls : List FieldDecl) :
    ∀ sd, (sd.fields.map fun f => f.name).Nodup →
      ((parseFieldList sd decls).isOk = true ↔
        (sd.fields.map (fun f => f.name) ++ expandedNames decls).Nodup) ∧
      (∀ e, parseFieldList sd decls = .error e →
        ∃ n, e = "field already exists: " ++ n) := by
  induction decls with
  | nil =>
    intro sd hnd
    refine ⟨?_, ?_⟩
    · simp only [parseFieldList, expandedNames, List.flatMap_nil, List.append_nil]
      exact ⟨fun _ => hnd, fun _ => rfl⟩
    · intro e h; cases h
  | cons d rest ih =>
    intro sd hnd
    obtain ⟨hI1, hI2, hI3⟩ := parseFieldInsert_spec sd d hnd
    unfold parseFieldList
    cases hI : parseFieldInsert sd d with
    | error e =>
      have hno : ¬ (sd.fields.map (fun f => f.name) ++ declNames d).Nodup := by
        intro hcon
        have : (parseFieldInsert sd d).isOk = true := hI1.mpr hcon
        rw [hI] at this
        cases this
      refine ⟨?_, ?_⟩
      · constructor
        · intro h; cases h
        · intro h
          exfalso
          apply hno
          refine h.sublist ?_
          rw [show expandedNames (d :: rest) = declNames d ++ expandedNames rest from rfl,
            ← List.append_assoc]
          exact List.sublist_append_left _ _
      · intro e' h
        cases h
        exact hI3 e hI
    | ok sd₁ =>
      obtain ⟨hN1, _⟩ := hI2 sd₁ hI
      have hndOk : (sd.fields.map (fun f => f.name) ++ declNames d).Nodup := by
        rw [← hN1]
        exact hN1 ▸ (by
          have : (parseFieldInsert sd d).isOk = true := by rw [hI]; rfl
          exact hI1.mp this)
      have hnd₁ : (sd₁.fields.map fun f => f.name).Nodup := by rw [hN1]; exact hndOk
      obtain ⟨hR1, hR2⟩ := ih sd₁ hnd₁
      refine ⟨?_, hR2⟩
      rw [hR1, hN1,
        show expandedNames (d :: rest) = declNames d ++ expandedNames rest from rfl,
        List.append_assoc]

/-- **C10**: in a table or struct declaration, two fields with the same name
(including a collision between a user field named `x_type` and the
auto-generated `UTYPE` sibling of a union field named `x`) make the parse fail
with "field already exists"; the parse of the field list succeeds exactly when
all entered names (unions contributing their `_type` sibling) are distinct. -/
theorem c10_duplicate_field (b : Bool) (decls : List FieldDecl) :
    ((parseFieldList { fixed := b } decls).isOk = true ↔ (expandedNames decls).Nodup) ∧
    (¬ (expandedNames decls).Nodup →
      ∃ n, parseFieldList { fixed := b } decls = .error ("field already exists: " ++ n)) ∧
    parseFieldList { fixed := b }
        [⟨"x_type", BaseType.CHAR, 1, 1⟩, ⟨"x", BaseType.UNION, 4, 4⟩] =
      .error ("field already exists: x_type") := by
  obtain ⟨h1, h2⟩ := parseFieldList_spec decls { fixed := b } (by simp)
  refine ⟨by simpa using h1, ?_, by cases b <;> rfl⟩
  intro hnd
  cases hE : parseFieldList { fixed := b } decls with
  | ok s =>
    exfalso
    apply hnd
    have : (parseFieldList { fixed := b } decls).isOk = true := by rw [hE]; rfl
    simpa using h1.mp this
  | error e =>
    obtain ⟨n, hn⟩ := h2 e hE
    exact ⟨n, by rw [hn]⟩

/-- Witness for C10: a table with two fields named `a` is rejected with
"field already exists". -/
theorem c10_duplicate_field_witness :
    (parseFieldList { fixed := false }
      [⟨"a", BaseType.INT, 4, 4⟩, ⟨"a", BaseType.INT, 4, 4⟩]).isOk = false ∧
    (∃ n, parseFieldList { fixed := false }
      [⟨"a", BaseType.INT, 4, 4⟩, ⟨"a", BaseType.INT, 4, 4⟩] =
        .error ("field already exists: " ++ n)) := by
  have h := c10_duplicate_field false [⟨"a", BaseType.INT, 4, 4⟩, ⟨"a", BaseType.INT, 4, 4⟩]
  refine ⟨?_, h.2.1 (by decide)⟩
  cases hB : (parseFieldList { fixed := false }
      [⟨"a", BaseType.INT, 4, 4⟩, ⟨"a", BaseType.INT, 4, 4⟩]).isOk with
  | false => rfl
  | true => exact absurd (h.1.mp hB) (by decide)

/-! ### Explicit `id` attributes (claim C1) -/

/-- The integer value of a field's `id` attribute (`atoi` of its constant);
only consulted on fields that carry the attribute. -/
def idOf (f : FieldF) : Int := f.id?.getD 0

/-- The verification/reassignment loop at the end of `ParseDecl`: walking the
sorted field list, fail unless position `i` carries id `i`, and reassign the
vtable offset to `FieldIndexToOffset i`. -/
def assignIds : List FieldF → Nat → Except String (List FieldF)
  | [], _ => .ok []
  | f :: fs, i =>
    if (i : Int) = idOf f then
      match assignIds fs (i + 1) with
      | .error e => .error e
      | .ok rest => .ok ({ f with offset := FieldIndexToOffset i } :: rest)
    else
      .error ("field id" ++ apos ++ "s must be consecutive from 0, id " ++
        toString i ++ " missing or set twice")

/-- The `std::sort` by id of `ParseDecl`, modelled by a stable sort on
`idOf · ≤ idOf ·`.  The source comparator is the strict `a_id < b_id`; the two
agree whenever the ids are distinct, and when ids repeat the subsequent
contiguity check rejects the fields in every tie order. -/
def sortById (fields : List FieldF) : List FieldF :=
  List.insertionSort (fun a b => idOf a ≤ idOf b) fields

/-- The manual-id phase at the end of `ParseDecl`: on a table with fields, if
any field carries an `id` attribute then all must; the fields are sorted by id
and the contiguity check / offset reassignment loop is run. -/
def idPhase (fixed : Bool) (fields : List FieldF) : Except String (List FieldF) :=
  if fixed ∨ fields = [] then .ok fields
  else
    let numIdFields := (fields.filter fun f => f.id?.isSome).length
    if numIdFields = 0 then .ok fields
    else if numIdFields ≠ fields.length then
      .error ("either all fields or no fields must have an " ++ apos ++ "id" ++
        apos ++ " attribute")
    else assignIds (sortById fields) 0

/-- The `id` handoff of `ParseField`: a union field with a manually assigned
id `k` gives its auto-generated `_type` sibling the id `k - 1`
(`NumToString(id - 1)`). -/
def setUnionTypeFieldId (fieldId? : Option Int) (typefield : FieldF) : FieldF :=
  match fieldId? with
  | some k => { typefield with id? := some (k - 1) }
  | none => typefield

theorem assignIds_ok_iff (s : List FieldF) :
    ∀ i, (∃ r, assignIds s i = .ok r) ↔
      s.map idOf = (List.range s.length).map (fun j => ((i + j : Nat) : Int)) := by
  induction s with
  | nil => intro i; simp [assignIds]
  | cons f fs ih =>
    intro i
    rw [show (f :: fs).length = fs.length + 1 from rfl, List.range_succ_eq_map]
    simp only [List.map_cons, List.map_map]
    constructor
    · intro ⟨r, hr⟩
      unfold assignIds at hr
      split at hr
      · rename_i hid
        cases hA : assignIds fs (i + 1) with
        | error e => rw [hA] at hr; cases hr
        | ok rest =>
          have h1 := (ih (i + 1)).mp ⟨rest, hA⟩
          rw [List.cons.injEq]
          constructor
          · rw [← hid]; simp
          · rw [h1]
            apply List.map_congr_left
            intro j _
            simp only [Function.comp_apply]
            congr 1
            omega
      · cases hr
    · intro h
      obtain ⟨h1, h2⟩ := List.cons.injEq _ _ _ _ ▸ h
      have hid : (i : Int) = idOf f := by
        rw [h1]; simp
      have h2' : fs.map idOf =
          (List.range fs.length).map (fun j => ((i + 1 + j : Nat) : Int)) := by
        rw [h2]
        apply List.map_congr_left
        intro j _
        simp only [Function.comp_apply]
        congr 1
        omega
      obtain ⟨rest, hrest⟩ := (ih (i + 1)).mpr h2'
      refine ⟨{ f with offset := FieldIndexToOffset i } :: rest, ?_⟩
      unfold assignIds
      rw [if_pos hid, hrest]

theorem assignIds_ok_spec (s : List FieldF) :
    ∀ i r, assignIds s i = .ok r →
      r.length = s.length ∧
      (∀ j (hj : j < r.length), (r.get ⟨j, hj⟩).offset = FieldIndexToOffset (i + j)) ∧
      r.map (fun f => (f.name, f.id?)) = s.map (fun f => (f.name, f.id?)) := by
  induction s with
  | nil =>
    intro i r hr
    cases hr
    exact ⟨rfl, fun j hj => absurd hj (by simp), rfl⟩
  | cons f fs ih =>
    intro i r hr
    unfold assignIds at hr
    split at hr
    · cases hA : assignIds fs (i + 1) with
      | error e => rw [hA] at hr; cases hr
      | ok rest =>
        rw [hA] at hr
        cases hr
        obtain ⟨hl, ho, hm⟩ := ih (i + 1) rest hA
        refine ⟨by simp [hl], ?_, by simp [hm]⟩
        intro j hj
        cases j with
        | zero => rfl
        | succ j' =>
          have hj' : j' < rest.length := by
            simp at hj
            omega
          have := ho j' hj'
          simp only [List.get_cons_succ]
          rw [this]
          congr 1
          omega
    · cases hr

theorem length_filter_eq_iff {α : Type} (l : List α) (p : α → Bool) :
    (l.filter p).length = l.length ↔ ∀ a ∈ l, p a := by
  constructor
  · induction l with
    | nil => intro _ a ha; cases ha
    | cons x xs ih =>
      intro h a ha
      by_cases hx : p x
      · rw [List.filter_cons_of_pos hx] at h
        simp only [List.length_cons, Nat.add_left_inj] at h
        rcases List.mem_cons.1 ha with rfl | ha'
        · exact hx
        · exact ih h a ha'
      · rw [List.filter_cons_of_neg hx] at h
        have hle := List.length_filter_le p xs
        simp only [List.length_cons] at h
        omega
  · intro h
    rw [List.filter_eq_self.mpr h]

theorem map_idOf_eq_pairs (l : List FieldF) :
    l.map idOf = (l.map (fun f => (f.name, f.id?))).map (fun pr => pr.2.getD 0) := by
  rw [List.map_map]; rfl

/-- **C1**: on a table whose declaration has at least one field with an `id`
attribute, `ParseDecl` fails with "either all fields or no fields must have an
id attribute" unless every field has one; when all do, the phase succeeds
exactly when the multiset of ids is `{0, …, N-1}` (no duplicates, no gaps); on
success the fields come out sorted by id (their id list is literally
`0, …, N-1`) with the vtable offset of position `i` reassigned to
`FieldIndexToOffset i`; and the `_type` sibling of a union field with explicit
id `k` receives id `k - 1`. -/
theorem c1_table_field_ids (fields : List FieldF) (h : ∃ f ∈ fields, f.id?.isSome = true) :
    ((¬ ∀ f ∈ fields, f.id?.isSome = true) →
      idPhase false fields = .error ("either all fields or no fields must have an " ++
        apos ++ "id" ++ apos ++ " attribute")) ∧
    ((∃ r, idPhase false fields = .ok r) ↔
      ((∀ f ∈ fields, f.id?.isSome = true) ∧
        (fields.map idOf).Perm ((List.range fields.length).map Int.ofNat))) ∧
    (∀ r, idPhase false fields = .ok r →
      r.map idOf = ((List.range fields.length).map Int.ofNat) ∧
      (∀ j (hj : j < r.length), (r.get ⟨j, hj⟩).offset = FieldIndexToOffset j) ∧
      (r.map (fun f => (f.name, f.id?))).Perm (fields.map fun f => (f.name, f.id?))) ∧
    (∀ (k : Int) (tf : FieldF), (setUnionTypeFieldId (some k) tf).id? = some (k - 1)) := by
  obtain ⟨f₀, hf₀, hs₀⟩ := h
  have hne : fields ≠ [] := List.ne_nil_of_mem hf₀
  have hnum0 : ((fields.filter fun f => f.id?.isSome).length = 0) = False := by
    simp only [eq_iff_iff, iff_false]
    intro hzero
    rw [List.length_eq_zero] at hzero
    exact absurd (hzero ▸ List.mem_filter.mpr ⟨hf₀, hs₀⟩) (List.not_mem_nil f₀)
  unfold idPhase
  rw [if_neg (by simp [hne]), if_neg (by rw [hnum0]; exact not_false)]
  by_cases hall : ∀ f ∈ fields, f.id?.isSome = true
  · rw [if_neg (by rw [(length_filter_eq_iff fields _).mpr hall]; exact fun hc => hc rfl)]
    have hlen : (sortById fields).length = fields.length := List.length_insertionSort _ _
    have hmapeq : ((List.range fields.length).map fun j => ((0 + j : Nat) : Int)) =
        (List.range fields.length).map Int.ofNat :=
      List.map_congr_left (fun j _ => by norm_num)
    have hiff : (∃ r, assignIds (sortById fields) 0 = .ok r) ↔
        (sortById fields).map idOf = (List.range fields.length).map Int.ofNat := by
      rw [assignIds_ok_iff, hlen, hmapeq]
    have hperm : ((sortById fields).map idOf).Perm (fields.map idOf) :=
      (List.perm_insertionSort _ fields).map idOf
    letI : IsTotal FieldF (fun a b => idOf a ≤ idOf b) := ⟨fun a b => le_total _ _⟩
    letI : IsTrans FieldF (fun a b => idOf a ≤ idOf b) := ⟨fun _ _ _ h1 h2 => le_trans h1 h2⟩
    have hsorted : ((sortById fields).map idOf).Pairwise (· ≤ ·) :=
      List.Pairwise.map idOf (fun _ _ hr => hr)
        (List.sorted_insertionSort (fun a b => idOf a ≤ idOf b) fields)
    have hrs : ((List.range fields.length).map Int.ofNat).Pairwise (· ≤ ·) :=
      List.Pairwise.map _ (fun a b hab => le_of_lt (Int.ofNat_lt.mpr hab))
        (List.pairwise_lt_range _)
    refine ⟨fun hn => absurd hall hn, ?_, ?_, fun k tf => rfl⟩
    · rw [hiff]
      constructor
      · intro heq
        exact ⟨hall, (heq ▸ hperm.symm : (fields.map idOf).Perm _)⟩
      · intro ⟨_, hp⟩
        exact List.eq_of_perm_of_sorted (hperm.trans hp) hsorted hrs
    · intro r hr
      obtain ⟨hl, ho, hm⟩ := assignIds_ok_spec (sortById fields) 0 r hr
      have heq : (sortById fields).map idOf =
          (List.range fields.length).map Int.ofNat :=
        hiff.mp ⟨r, hr⟩
      refine ⟨?_, ?_, ?_⟩
      · rw [map_idOf_eq_pairs, hm, ← map_idOf_eq_pairs]
        exact heq
      · intro j hj
        have := ho j hj
        rwa [Nat.zero_add] at this
      · rw [hm]
        exact (List.perm_insertionSort _ fields).map _
  · rw [if_pos (by
      intro hcon
      exact hall ((length_filter_eq_iff fields _).mp hcon))]
    refine ⟨fun _ => rfl, ?_, ?_, fun k tf => rfl⟩
    · constructor
      · intro ⟨r, hr⟩; cases hr
      · intro ⟨hc, _⟩; exact absurd hc hall
    · intro r hr; cases hr

/-- Witness for C1 at the spec's id-reorder scenario
(`table T \x7b a:int (id:1); b:int (id:0); \x7d`): the phase succeeds, `b` gets
vtable slot offset `FieldIndexToOffset 0 = 4` and `a` gets
`FieldIndexToOffset 1 = 6`; the union `_type` sibling of a field with id 2
gets id 1. -/
theorem c1_table_field_ids_witness :
    (∃ r, idPhase false
        [{ name := "a", offset := 4, size := 4, align := 4, id? := some 1 },
         { name := "b", offset := 6, size := 4, align := 4, id? := some 0 }] = .ok r) ∧
    (setUnionTypeFieldId (some 2)
      { name := "u_type", offset := 0, size := 1, align := 1 }).id? = some 1 := by
  have h := c1_table_field_ids
    [{ name := "a", offset := 4, size := 4, align := 4, id? := some 1 },
     { name := "b", offset := 6, size := 4, align := 4, id? := some 0 }]
    ⟨_, List.mem_cons_self _ _, rfl⟩
  refine ⟨h.2.1.mpr ⟨by decide, ?_⟩, h.2.2.2 2 _⟩
  decide

/-! ### `CheckBitsFit` (claim C9) -/

/-- `CheckBitsFit(val, bits)` as a predicate: `true` when the parse does not
raise.  The int64 bit operations of the source are the mathematical
two's-complement operations on `Int` (`&` is `Int.land`, `|` is `Int.lor`,
`~mask` is `Int.lnot mask = -mask - 1`); `mask = (1ll << bits) - 1` is the
nonnegative integer `2 ^ bits - 1` and is only consulted under the
`bits < 64` guard, exactly as in the source. -/
def checkBitsFit (val : Int) (bits : Nat) : Bool :=
  if bits < 64 then
    let mask : Int := Int.ofNat (2 ^ bits - 1)
    !(decide (Int.land val (Int.lnot mask) ≠ 0) && decide (Int.lor val mask ≠ -1))
  else
    true

/-- The error message raised by `CheckBitsFit` for a `bits`-bit field. -/
def fitErrMsg (bits : Nat) : String :=
  "constant does not fit in a " ++ toString bits ++ "-bit field"

/-- `atot<T>` on an integer type of `bits` bits: run `CheckBitsFit` and
return the value, or raise "constant does not fit in a N-bit field". -/
def atotCheck (v : Int) (bits : Nat) : Except String Int :=
  if checkBitsFit v bits then .ok v
  else .error (fitErrMsg bits)

/-- The scalar arm of the serialization loop of `ParseTable`
(`builder_.AddElement(offset, atot<CTYPE>(value.constant),
atot<CTYPE>(field->value.constant))`): both the parsed constant and the
field's default go through `atot`; the `bool`, `float` and `double`
specializations of `atot` do not range-check. -/
def emitScalarChecks (v d : Int) (bits : Nat) : Except String Unit :=
  match atotCheck v bits with
  | .error e => .error e
  | .ok _ =>
    match atotCheck d bits with
    | .error e => .error e
    | .ok _ => .ok ()

def emitScalarField (v d : Int) (bt : BaseType) : Except String Unit :=
  match bt with
  | .BOOL => .ok ()
  | .FLOAT => .ok ()
  | .DOUBLE => .ok ()
  | _ => emitScalarChecks v d (SizeOf bt * 8)

/-- The scalar emission pass over `(value, default, base type)` triples. -/
def emitScalarFields : List (Int × Int × BaseType) → Except String Unit
  | [] => .ok ()
  | e :: rest =>
    match emitScalarField e.1 e.2.1 e.2.2 with
    | .error m => .error m
    | .ok _ => emitScalarFields rest

theorem ldiff_two_pow_sub_one_eq_zero_iff (m w : Nat) :
    Nat.ldiff m (2 ^ w - 1) = 0 ↔ m < 2 ^ w := by
  constructor
  · intro h
    by_contra hlt
    push_neg at hlt
    have h1 : (1 : Nat) ≤ 2 ^ w := Nat.one_le_two_pow
    have hm0 : m ≠ 0 := by omega
    set i := Nat.log2 m with hi
    have h2 : 2 ^ i ≤ m := Nat.log2_self_le hm0
    have h3 : m < 2 ^ (i + 1) := Nat.lt_log2_self
    have hiw : w ≤ i := by
      by_contra hc
      push_neg at hc
      have : (2 : Nat) ^ (i + 1) ≤ 2 ^ w := Nat.pow_le_pow_right (by norm_num) hc
      omega
    have hpos : 0 < 2 ^ i := Nat.pos_pow_of_pos i (by norm_num)
    have hdiv : m / 2 ^ i = 1 := by
      have hlo : 1 ≤ m / 2 ^ i := (Nat.one_le_div_iff hpos).mpr h2
      have hhi : m / 2 ^ i < 2 := by
        rw [Nat.div_lt_iff_lt_mul hpos]
        have : (2 : Nat) ^ (i + 1) = 2 * 2 ^ i := by rw [pow_succ]; ring
        omega
      omega
    have hbit : m.testBit i = true := by
      rw [Nat.testBit_to_div_mod, hdiv]
      rfl
    have hone : (Nat.ldiff m (2 ^ w - 1)).testBit i = true := by
      rw [Nat.testBit_ldiff, hbit, Nat.testBit_two_pow_sub_one]
      simp [Nat.not_lt.mpr hiw]
    rw [h, Nat.zero_testBit] at hone
    cases hone
  · intro h
    apply Nat.eq_of_testBit_eq
    intro i
    rw [Nat.testBit_ldiff, Nat.testBit_two_pow_sub_one, Nat.zero_testBit]
    by_cases hiw : i < w
    · simp [hiw]
    · have hmf : m.testBit i = false :=
        Nat.testBit_lt_two_pow
          (lt_of_lt_of_le h (Nat.pow_le_pow_right (by norm_num) (Nat.not_lt.mp hiw)))
      simp [hmf]

theorem checkBitsFit_iff (v : Int) (w : Nat) (hw : w < 64) :
    checkBitsFit v w = true ↔ ((0 ≤ v ∧ v < 2 ^ w) ∨ (-(2 ^ w) ≤ v ∧ v < 0)) := by
  have hcast : ((2 ^ w : Nat) : Int) = 2 ^ w := by push_cast; ring
  unfold checkBitsFit
  rw [if_pos hw]
  simp only [Bool.not_eq_eq_eq_not, Bool.not_true, Bool.and_eq_false_imp,
    decide_eq_true_eq, decide_eq_false_iff_not, not_not]
  cases v with
  | ofNat m =>
    have hland : Int.land (Int.ofNat m) (Int.lnot (Int.ofNat (2 ^ w - 1))) =
        Int.ofNat (Nat.ldiff m (2 ^ w - 1)) := rfl
    have hlor : Int.lor (Int.ofNat m) (Int.ofNat (2 ^ w - 1)) =
        Int.ofNat (Nat.lor m (2 ^ w - 1)) := rfl
    rw [hland, hlor]
    simp only [Int.ofNat_eq_natCast]
    constructor
    · intro h
      by_cases hz : Nat.ldiff m (2 ^ w - 1) = 0
      · left
        refine ⟨Int.natCast_nonneg m, ?_⟩
        rw [← hcast]
        exact_mod_cast (ldiff_two_pow_sub_one_eq_zero_iff m w).mp hz
      · exfalso
        have h2 := h (by exact_mod_cast hz)
        have h3 := Int.natCast_nonneg (Nat.lor m (2 ^ w - 1))
        omega
    · intro h hz
      exfalso
      rcases h with ⟨_, hlt⟩ | ⟨_, hneg⟩
      · rw [← hcast] at hlt
        have hm : m < 2 ^ w := by exact_mod_cast hlt
        have hz0 := (ldiff_two_pow_sub_one_eq_zero_iff m w).mpr hm
        exact hz (by exact_mod_cast hz0)
      · have := Int.natCast_nonneg m
        omega
  | negSucc n =>
    have hland : Int.land (Int.negSucc n) (Int.lnot (Int.ofNat (2 ^ w - 1))) =
        Int.negSucc (Nat.lor n (2 ^ w - 1)) := rfl
    have hlor : Int.lor (Int.negSucc n) (Int.ofNat (2 ^ w - 1)) =
        Int.negSucc (Nat.ldiff n (2 ^ w - 1)) := rfl
    rw [hland, hlor]
    constructor
    · intro h
      have hm1 : Int.negSucc (Nat.ldiff n (2 ^ w - 1)) = Int.negSucc 0 :=
        h (by intro hcon; cases hcon)
      have hz : Nat.ldiff n (2 ^ w - 1) = 0 := Int.negSucc.inj hm1
      have hn : n < 2 ^ w := (ldiff_two_pow_sub_one_eq_zero_iff n w).mp hz
      right
      rw [Int.negSucc_eq]
      have hni : (n : Int) < ((2 ^ w : Nat) : Int) := by exact_mod_cast hn
      rw [hcast] at hni
      constructor <;> omega
    · intro h _
      rcases h with ⟨hge, _⟩ | ⟨hge, _⟩
      · exfalso
        rw [Int.negSucc_eq] at hge
        have := Int.natCast_nonneg n
        omega
      · rw [Int.negSucc_eq] at hge
        have hn : n < 2 ^ w := by
          have hni : (n : Int) < ((2 ^ w : Nat) : Int) := by rw [hcast]; omega
          exact_mod_cast hni
        have hz : Nat.ldiff n (2 ^ w - 1) = 0 :=
          (ldiff_two_pow_sub_one_eq_zero_iff n w).mpr hn
        rw [hz]
        rfl

theorem atotCheck_error_shape (v : Int) (bits : Nat) :
    ∀ e, atotCheck v bits = .error e → e = fitErrMsg bits := by
  intro e h
  unfold atotCheck at h
  split at h
  · cases h
  · cases h; rfl

theorem emitScalarChecks_error_shape (v d : Int) (bits : Nat) :
    ∀ e, emitScalarChecks v d bits = .error e → e = fitErrMsg bits := by
  intro e h
  unfold emitScalarChecks at h
  cases hv : atotCheck v bits with
  | error m =>
    rw [hv] at h
    cases h
    exact atotCheck_error_shape v bits _ hv
  | ok x =>
    rw [hv] at h
    cases hd : atotCheck d bits with
    | error m =>
      rw [hd] at h
      cases h
      exact atotCheck_error_shape d bits _ hd
    | ok y => rw [hd] at h; cases h

theorem emitScalarField_error_shape (v d : Int) (bt : BaseType) :
    ∀ e, emitScalarField v d bt = .error e → ∃ w : Nat, e = fitErrMsg w := by
  intro e h
  cases bt <;> simp only [emitScalarField] at h <;>
    first
      | cases h
      | exact ⟨_, emitScalarChecks_error_shape _ _ _ _ h⟩

/-- **C9**: for a scalar field of integer type with width `w < 64` bits,
`CheckBitsFit` accepts a constant exactly when its top `64 - w` bits are all
zero (value in `[0, 2^w)`) or all one (value in `[-2^w, 0)`); an integer
scalar whose constant fails the check raises exactly
"constant does not fit in a N-bit field" during the scalar serialization pass
of `ParseTable`; the pass succeeds only when every supplied constant and
default passes, and every failure carries a message of that shape — the value
is never silently truncated. -/
theorem c9_constant_bit_fit :
    (∀ (v : Int) (w : Nat), w < 64 →
      (checkBitsFit v w = true ↔ ((0 ≤ v ∧ v < 2 ^ w) ∨ (-(2 ^ w) ≤ v ∧ v < 0)))) ∧
    (∀ (v d : Int) (bt : BaseType), IsInteger bt = true → bt ≠ BaseType.BOOL →
      checkBitsFit v (SizeOf bt * 8) = false →
      emitScalarField v d bt = .error (fitErrMsg (SizeOf bt * 8))) ∧
    (∀ L : List (Int × Int × BaseType),
      (emitScalarFields L = .ok () ↔ ∀ e ∈ L, emitScalarField e.1 e.2.1 e.2.2 = .ok ())) ∧
    (∀ (L : List (Int × Int × BaseType)) (e : String), emitScalarFields L = .error e →
      ∃ w : Nat, e = fitErrMsg w) := by
  refine ⟨fun v w hw => checkBitsFit_iff v w hw, ?_, ?_, ?_⟩
  · intro v d bt hint hbool hfit
    cases bt <;> first
      | (exfalso; exact hbool rfl)
      | (simp only [emitScalarField, emitScalarChecks, atotCheck]
         rw [if_neg (by rw [hfit]; exact Bool.false_ne_true)])
      | exact absurd hint (by decide)
  · intro L
    induction L with
    | nil =>
      constructor
      · intro _ e he; cases he
      · intro _; rfl
    | cons x rest ih =>
      simp only [emitScalarFields]
      cases hx : emitScalarField x.1 x.2.1 x.2.2 with
      | error m =>
        constructor
        · intro hcon; cases hcon
        · intro hall
          exfalso
          have := hall x (List.mem_cons_self _ _)
          rw [hx] at this
          cases this
      | ok u =>
        cases u
        rw [ih]
        constructor
        · intro hall e he
          rcases List.mem_cons.1 he with rfl | he'
          · exact hx
          · exact hall e he'
        · intro hall e he
          exact hall e (List.mem_cons_of_mem _ he)
  · intro L
    induction L with
    | nil => intro e h; cases h
    | cons x rest ih =>
      intro e h
      simp only [emitScalarFields] at h
      cases hx : emitScalarField x.1 x.2.1 x.2.2 with
      | error m =>
        rw [hx] at h
        cases h
        exact emitScalarField_error_shape x.1 x.2.1 x.2.2 _ hx
      | ok u =>
        rw [hx] at h
        cases u
        exact ih e h

/-- Witness for C9: `300` does not fit a signed/unsigned 8-bit field and the
emission of a `byte` (CHAR) field with constant 300 raises exactly the 8-bit
message, while `-128` fits 8 bits (top bits all one). -/
theorem c9_constant_bit_fit_witness :
    checkBitsFit 300 8 = false ∧
    emitScalarField 300 0 BaseType.CHAR = .error (fitErrMsg 8) ∧
    checkBitsFit (-128) 8 = true := by
  have hiff := c9_constant_bit_fit.1 300 8 (by norm_num)
  have hf : checkBitsFit 300 8 = false := by
    cases hB : checkBitsFit 300 8 with
    | false => rfl
    | true => rcases hiff.mp hB with ⟨_, h⟩ | ⟨_, h⟩ <;> norm_num at h
  have ht : checkBitsFit (-128) 8 = true :=
    (c9_constant_bit_fit.1 (-128) 8 (by norm_num)).mpr
      (Or.inr ⟨by norm_num, by norm_num⟩)
  exact ⟨hf, c9_constant_bit_fit.2.1 300 0 BaseType.CHAR (by decide) (by decide) hf, ht⟩

/-! ### `ParseEnum` (claims C3 and C7) -/

/-- An enumerator (`EnumVal`), restricted to name and value. -/
structure EnumValM where
  name : String
  value : Int
  deriving DecidableEq, Repr

/-- The value an enumerator receives when it has no explicit assignment:
`vals.vec.back()->value + 1`, or `0` when no enumerator precedes it. -/
def enumImplicit (acc : List EnumValM) : Int :=
  match acc.getLast? with
  | some ev => ev.value + 1
  | none => 0

/-- The source's ascending-order error message. -/
def ascMsg : String := "enum values must be specified in ascending order"

/-- The ascending-order test of `ParseEnum` for an explicit value `v`:
`prevsize && enum_def.vals.vec[prevsize - 1]->value >= ev.value` — vacuously
false when no enumerator precedes. -/
def ascCheck (acc : List EnumValM) (v : Int) : Bool :=
  match acc.getLast? with
  | some last => decide (last.value ≥ v)
  | none => false

/-- The enumerator loop of `ParseEnum`: each entry is a name and an optional
explicit `= N` value.  The implicit value is previous + 1 (0 at the start);
the name is added to the value symbol table (duplicate → error); an explicit
value replaces the implicit one and, when a previous enumerator exists, must
strictly exceed its value. -/
def parseEnumValsAux : List EnumValM → List (String × Option Int) → Except String (List EnumValM)
  | acc, [] => .ok acc
  | acc, (nm, exp) :: rest =>
    if acc.any (fun ev => ev.name = nm) then
      .error ("enum value already exists: " ++ nm)
    else
      match exp with
      | none => parseEnumValsAux (acc ++ [⟨nm, enumImplicit acc⟩]) rest
      | some v =>
        if ascCheck acc v then .error ascMsg
        else parseEnumValsAux (acc ++ [⟨nm, v⟩]) rest

/-- `ParseEnum`'s enumerator phase: for a union, a `NONE = 0` entry is
prepended before the body is parsed. -/
def parseEnumVals (is_union : Bool) (entries : List (String × Option Int)) :
    Except String (List EnumValM) :=
  parseEnumValsAux (if is_union then [⟨"NONE", 0⟩] else []) entries

/-- The enumerators the loop would construct, independent of its checks. -/
def enumValuesAux : List EnumValM → List (String × Option Int) → List EnumValM
  | acc, [] => acc
  | acc, (nm, exp) :: rest =>
    enumValuesAux (acc ++ [⟨nm, exp.getD (enumImplicit acc)⟩]) rest

/-- The value sequence of an enum declaration (with the union `NONE`). -/
def enumValues (is_union : Bool) (entries : List (String × Option Int)) : List Int :=
  (enumValuesAux (if is_union then [⟨"NONE", 0⟩] else []) entries).map (fun ev => ev.value)

theorem enumImplicit_last {acc : List EnumValM} {y : EnumValM}
    (hy : acc.getLast? = some y) : enumImplicit acc = y.value + 1 := by
  unfold enumImplicit
  rw [hy]

theorem enumValuesAux_exists_suffix (entries : List (String × Option Int)) :
    ∀ acc, ∃ t, enumValuesAux acc entries = acc ++ t := by
  induction entries with
  | nil => intro acc; exact ⟨[], by simp [enumValuesAux]⟩
  | cons e rest ih =>
    intro acc
    obtain ⟨nm, exp⟩ := e
    obtain ⟨t, ht⟩ := ih (acc ++ [⟨nm, exp.getD (enumImplicit acc)⟩])
    exact ⟨⟨nm, exp.getD (enumImplicit acc)⟩ :: t, by
      simp only [enumValuesAux]
      rw [ht, List.append_assoc, List.singleton_append]⟩

theorem parseEnumValsAux_ok_val (entries : List (String × Option Int)) :
    ∀ acc vs, parseEnumValsAux acc entries = .ok vs → vs = enumValuesAux acc entries := by
  induction entries with
  | nil => intro acc vs h; cases h; rfl
  | cons e rest ih =>
    intro acc vs h
    obtain ⟨nm, exp⟩ := e
    by_cases hdup : (acc.any fun ev => ev.name = nm) = true
    · rw [show parseEnumValsAux acc ((nm, exp) :: rest) =
          .error ("enum value already exists: " ++ nm) from by
        simp [parseEnumValsAux, hdup]] at h
      cases h
    · have hdup' : (acc.any fun ev => ev.name = nm) = false := Bool.not_eq_true _ |>.mp hdup
      cases exp with
      | none =>
        rw [show parseEnumValsAux acc ((nm, none) :: rest) =
            parseEnumValsAux (acc ++ [⟨nm, enumImplicit acc⟩]) rest from by
          simp [parseEnumValsAux, hdup']] at h
        simp only [enumValuesAux, Option.getD_none]
        exact ih _ vs h
      | some v =>
        by_cases hac : ascCheck acc v = true
        · rw [show parseEnumValsAux acc ((nm, some v) :: rest) = .error ascMsg from by
            simp [parseEnumValsAux, hdup', hac]] at h
          cases h
        · have hac' : ascCheck acc v = false := Bool.not_eq_true _ |>.mp hac
          rw [show parseEnumValsAux acc ((nm, some v) :: rest) =
              parseEnumValsAux (acc ++ [⟨nm, v⟩]) rest from by
            simp [parseEnumValsAux, hdup', hac']] at h
          simp only [enumValuesAux, Option.getD_some]
          exact ih _ vs h

theorem chain'_snoc_lt (l : List Int) (x : Int) :
    List.Chain' (· < ·) (l ++ [x]) ↔
      List.Chain' (· < ·) l ∧ ∀ y ∈ l.getLast?, y < x := by
  rw [List.chain'_append]
  simp [List.chain'_singleton]

theorem parseEnumValsAux_spec (entries : List (String × Option Int)) :
    ∀ acc, ((acc.map fun ev => ev.name) ++ entries.map Prod.fst).Nodup →
      List.Chain' (· < ·) (acc.map fun ev => ev.value) →
      (parseEnumValsAux acc entries = .ok (enumValuesAux acc entries) ∧
        List.Chain' (· < ·) ((enumValuesAux acc entries).map fun ev => ev.value)) ∨
      (parseEnumValsAux acc entries = .error ascMsg ∧
        ¬ List.Chain' (· < ·) ((enumValuesAux acc entries).map fun ev => ev.value)) := by
  induction entries with
  | nil =>
    intro acc _ hch
    left
    exact ⟨rfl, by simpa [enumValuesAux] using hch⟩
  | cons e rest ih =>
    intro acc hnd hch
    obtain ⟨nm, exp⟩ := e
    have hmem : nm ∉ acc.map fun ev => ev.name := by
      intro hm
      have hdisj := (List.nodup_append.mp hnd).2.2
      exact hdisj hm (by simp)
    have hdup : (acc.any fun ev => ev.name = nm) = false := by
      rw [← Bool.not_eq_true, List.any_eq_true]
      rintro ⟨ev, hev, heq⟩
      exact hmem (List.mem_map.mpr ⟨ev, hev, by simpa using heq⟩)
    have hnd' : ∀ v : Int,
        (((acc ++ [(⟨nm, v⟩ : EnumValM)]).map fun ev => ev.name) ++ rest.map Prod.fst).Nodup := by
      intro v
      have hEq : (((acc ++ [(⟨nm, v⟩ : EnumValM)]).map fun ev => ev.name) ++ rest.map Prod.fst) =
          ((acc.map fun ev => ev.name) ++ (nm :: rest.map Prod.fst)) := by
        simp
      rw [hEq]
      simpa using hnd
    have hstep : ∀ v : Int, (∀ y ∈ acc.getLast?, y.value < v) →
        List.Chain' (· < ·) ((acc ++ [(⟨nm, v⟩ : EnumValM)]).map fun ev => ev.value) := by
      intro v hy
      rw [List.map_append]
      simp only [List.map_cons, List.map_nil]
      rw [chain'_snoc_lt]
      refine ⟨hch, ?_⟩
      intro y hyy
      rw [List.getLast?_map] at hyy
      cases hLa : acc.getLast? with
      | none => rw [hLa] at hyy; cases hyy
      | some z =>
        rw [hLa] at hyy
        have hzy : z.value = y := by simpa using hyy
        rw [← hzy]
        exact hy z (by rw [hLa]; rfl)
    cases exp with
    | none =>
      have hlt : ∀ y ∈ acc.getLast?, y.value < enumImplicit acc := by
        intro y hy
        rw [Option.mem_def] at hy
        rw [enumImplicit_last hy]
        omega
      rw [show parseEnumValsAux acc ((nm, none) :: rest) =
          parseEnumValsAux (acc ++ [⟨nm, enumImplicit acc⟩]) rest from by
        simp [parseEnumValsAux, hdup]]
      rw [show enumValuesAux acc ((nm, none) :: rest) =
          enumValuesAux (acc ++ [⟨nm, enumImplicit acc⟩]) rest from by
        simp [enumValuesAux]]
      exact ih (acc ++ [⟨nm, enumImplicit acc⟩]) (hnd' _) (hstep _ hlt)
    | some v =>
      rw [show enumValuesAux acc ((nm, some v) :: rest) =
          enumValuesAux (acc ++ [⟨nm, v⟩]) rest from by
        simp [enumValuesAux]]
      by_cases hac : ascCheck acc v = true
      · rw [show parseEnumValsAux acc ((nm, some v) :: rest) = .error ascMsg from by
          simp [parseEnumValsAux, hdup, hac]]
        obtain ⟨last, hL, hge⟩ : ∃ last, acc.getLast? = some last ∧ last.value ≥ v := by
          unfold ascCheck at hac
          cases hL : acc.getLast? with
          | some last =>
            rw [hL] at hac
            exact ⟨last, rfl, of_decide_eq_true hac⟩
          | none => rw [hL] at hac; cases hac
        right
        refine ⟨rfl, ?_⟩
        intro hcon
        obtain ⟨t, ht⟩ := enumValuesAux_exists_suffix rest (acc ++ [(⟨nm, v⟩ : EnumValM)])
        rw [ht, List.map_append] at hcon
        have hpre := (List.chain'_append.mp hcon).1
        rw [List.map_append] at hpre
        simp only [List.map_cons, List.map_nil] at hpre
        rw [chain'_snoc_lt] at hpre
        have := hpre.2 last.value (by rw [List.getLast?_map, hL]; rfl)
        omega
      · rw [show parseEnumValsAux acc ((nm, some v) :: rest) =
            parseEnumValsAux (acc ++ [⟨nm, v⟩]) rest from by
          simp [parseEnumValsAux, hdup, Bool.not_eq_true _ |>.mp hac]]
        have hlt : ∀ y ∈ acc.getLast?, y.value < v := by
          intro y hy
          rw [Option.mem_def] at hy
          by_contra hc
          push_neg at hc
          apply hac
          unfold ascCheck
          rw [hy]
          exact decide_eq_true (by omega)
        exact ih (acc ++ [⟨nm, v⟩]) (hnd' _) (hstep _ hlt)

/-- **C3**: in a `ParseEnum` body whose enumerator names are fresh, the parse
succeeds exactly when the resulting value sequence is strictly ascending (an
explicit `= N` must strictly exceed the previous value, implicit values being
previous + 1 never violate it); on success the values are pairwise strictly
increasing, and otherwise the parse fails with exactly
"enum values must be specified in ascending order". -/
theorem c3_enum_ascending (u : Bool) (entries : List (String × Option Int))
    (hnd : (((if u then [(⟨"NONE", 0⟩ : EnumValM)] else []).map fun ev => ev.name) ++
      entries.map Prod.fst).Nodup) :
    ((∃ vs, parseEnumVals u entries = .ok vs) ↔
      List.Chain' (· < ·) (enumValues u entries)) ∧
    (∀ vs, parseEnumVals u entries = .ok vs →
      vs.map (fun ev => ev.value) = enumValues u entries ∧
      (vs.map fun ev => ev.value).Pairwise (· < ·)) ∧
    (¬ List.Chain' (· < ·) (enumValues u entries) →
      parseEnumVals u entries = .error ascMsg) := by
  have hchInit : List.Chain' (· < ·)
      ((if u then [(⟨"NONE", 0⟩ : EnumValM)] else []).map fun ev => ev.value) := by
    cases u <;> simp
  have hspec := parseEnumValsAux_spec entries _ hnd hchInit
  unfold parseEnumVals enumValues
  rcases hspec with ⟨hok, hch⟩ | ⟨herr, hnch⟩
  · refine ⟨⟨fun _ => hch, fun _ => ⟨_, hok⟩⟩, ?_, fun hn => absurd hch hn⟩
    intro vs hvs
    have hv := parseEnumValsAux_ok_val entries _ vs hvs
    subst hv
    exact ⟨rfl, List.chain'_iff_pairwise.mp hch⟩
  · refine ⟨⟨?_, fun hc => absurd hc hnch⟩, ?_, fun _ => herr⟩
    · rintro ⟨vs, hvs⟩
      rw [herr] at hvs
      cases hvs
    · intro vs hvs
      rw [herr] at hvs
      cases hvs

/-- Witness for C3: `enum E : int \x7b A, B = 5 \x7d` parses (0 < 5), while
`\x7b X, Y = -3 \x7d` fails with the ascending-order error. -/
theorem c3_enum_ascending_witness :
    (∃ vs, parseEnumVals false [("A", none), ("B", some (5 : Int))] = .ok vs) ∧
    parseEnumVals false [("X", none), ("Y", some (-3 : Int))] = .error ascMsg := by
  have h1 := c3_enum_ascending false [("A", none), ("B", some 5)] (by decide)
  have h2 := c3_enum_ascending false [("X", none), ("Y", some (-3))] (by decide)
  have hv1 : enumValues false [("A", none), ("B", some (5 : Int))] = [0, 5] := rfl
  have hv2 : enumValues false [("X", none), ("Y", some (-3 : Int))] = [0, -3] := rfl
  refine ⟨h1.1.mpr ?_, h2.2.2 ?_⟩
  · rw [hv1]
    norm_num [List.chain'_cons, List.chain'_singleton]
  · rw [hv2]
    norm_num [List.chain'_cons]

theorem enumValuesAux_implicit (entries : List (String × Option Int)) :
    ∀ acc, (∀ e ∈ entries, e.2 = none) →
      (enumValuesAux acc entries).map (fun ev => ev.value) =
        (acc.map fun ev => ev.value) ++
          (List.range entries.length).map (fun j : Nat => enumImplicit acc + (j : Int)) := by
  induction entries with
  | nil => intro acc _; simp [enumValuesAux]
  | cons e rest ih =>
    intro acc hall
    obtain ⟨nm, exp⟩ := e
    have he : exp = none := hall (nm, exp) (List.mem_cons_self _ _)
    subst he
    rw [show enumValuesAux acc ((nm, none) :: rest) =
        enumValuesAux (acc ++ [⟨nm, enumImplicit acc⟩]) rest from by simp [enumValuesAux]]
    rw [ih _ (fun e he' => hall e (List.mem_cons_of_mem _ he'))]
    have himp : enumImplicit (acc ++ [(⟨nm, enumImplicit acc⟩ : EnumValM)]) =
        enumImplicit acc + 1 := by
      unfold enumImplicit
      rw [List.getLast?_concat]
    rw [himp, List.map_append]
    simp only [List.map_cons, List.map_nil]
    rw [List.append_assoc, List.singleton_append]
    congr 1
    rw [List.length_cons, List.range_succ_eq_map, List.map_cons, List.map_map]
    congr 1
    · simp
    · apply List.map_congr_left
      intro j _
      simp only [Function.comp_apply]
      push_cast
      ring

/-- **C7**: in `ParseEnum`, an enumerator without explicit assignment receives
the previous value plus one, the first receiving 0; unions prepend `NONE = 0`
before the body is parsed, so the first declared union member receives 1 —
in particular an all-implicit enum gets values `0, …, n-1` and an all-implicit
union gets `0, …, n` (with the prepended `NONE`), every successful union parse
starts with `NONE = 0`, and the parsed values always agree with this value
assignment. -/
theorem c7_enum_implicit_values :
    (∀ entries : List (String × Option Int), (∀ e ∈ entries, e.2 = none) →
      enumValues false entries = (List.range entries.length).map Int.ofNat ∧
      enumValues true entries = (List.range (entries.length + 1)).map Int.ofNat) ∧
    (∀ (entries : List (String × Option Int)) vs, parseEnumVals true entries = .ok vs →
      vs.head? = some ⟨"NONE", 0⟩) ∧
    (∀ (nm : String) (rest : List (String × Option Int)),
      (enumValues true ((nm, none) :: rest)).take 2 = [0, 1]) ∧
    (∀ (u : Bool) (entries : List (String × Option Int)) vs,
      parseEnumVals u entries = .ok vs → vs.map (fun ev => ev.value) = enumValues u entries) := by
  refine ⟨?_, ?_, ?_, ?_⟩
  · intro entries hall
    constructor
    · have h := enumValuesAux_implicit entries [] hall
      simp only [List.map_nil, List.nil_append] at h
      show (enumValuesAux [] entries).map (fun ev => ev.value) = _
      rw [h]
      apply List.map_congr_left
      intro j _
      show enumImplicit [] + (j : Int) = Int.ofNat j
      simp [enumImplicit]
    · have h := enumValuesAux_implicit entries [⟨"NONE", 0⟩] hall
      show (enumValuesAux [⟨"NONE", 0⟩] entries).map (fun ev => ev.value) = _
      rw [h, List.range_succ_eq_map]
      simp only [List.map_cons, List.map_nil, List.singleton_append, List.map_map]
      congr 1
      apply List.map_congr_left
      intro j _
      simp only [Function.comp_apply]
      rw [show enumImplicit [(⟨"NONE", 0⟩ : EnumValM)] = 1 from rfl,
        Int.ofNat_eq_natCast]
      push_cast
      ring
  · intro entries vs h
    have hv := parseEnumValsAux_ok_val entries [⟨"NONE", 0⟩] vs h
    obtain ⟨t, ht⟩ := enumValuesAux_exists_suffix entries [⟨"NONE", 0⟩]
    rw [hv, ht, List.singleton_append, List.head?_cons]
  · intro nm rest
    show ((enumValuesAux [⟨"NONE", 0⟩] ((nm, none) :: rest)).map (fun ev => ev.value)).take 2 = _
    rw [show enumValuesAux [(⟨"NONE", 0⟩ : EnumValM)] ((nm, none) :: rest) =
        enumValuesAux [⟨"NONE", 0⟩, ⟨nm, 1⟩] rest from by
      simp [enumValuesAux, enumImplicit]]
    obtain ⟨t, ht⟩ := enumValuesAux_exists_suffix rest [⟨"NONE", 0⟩, ⟨nm, 1⟩]
    rw [ht, List.map_append]
    rw [show ([(⟨"NONE", 0⟩ : EnumValM), ⟨nm, 1⟩].map fun ev => ev.value) = [(0 : Int), 1]
      from rfl]
    rw [show (2 : Nat) = ([(0 : Int), 1]).length from rfl, List.take_left]
  · intro u entries vs h
    exact congrArg (List.map fun ev => ev.value)
      (parseEnumValsAux_ok_val entries (if u then [⟨"NONE", 0⟩] else []) vs h)

/-- Witness for C7: three implicit enumerators get `0, 1, 2`; a union with one
implicit member gets `NONE = 0` and the member value `1`. -/
theorem c7_enum_implicit_values_witness :
    enumValues false [("R", none), ("G", none), ("B", none)] = [0, 1, 2] ∧
    enumValues true [("A", none)] = [0, 1] := by
  have h1 := (c7_enum_implicit_values.1 [("R", none), ("G", none), ("B", none)] (by decide)).1
  have h2 := (c7_enum_implicit_values.1 [("A", none)] (by decide)).2
  constructor
  · rw [h1]; rfl
  · rw [h2]; rfl

/-! ### `bit_flags` (claim C4) -/

/-- `static_cast<size_t>(value)` on an int64 value: two's-complement
reinterpretation as an unsigned 64-bit quantity. -/
def castSizeT (v : Int) : Nat := (v % (2 : Int) ^ 64).toNat

/-- `1LL << v` wrapped into int64 (two's-complement; only differs from `2^v`
at `v = 63`, where the sign bit is produced). -/
def toInt64 (x : Int) : Int := (x + 2 ^ 63) % 2 ^ 64 - 2 ^ 63

/-- The `bit_flags` epilogue of `ParseEnum`: for each enumerator value `v`
(in order), fail with "bit flag out of range of underlying integral type" when
`static_cast<size_t>(v) >= SizeOf(underlying) * 8`, otherwise replace the
value by `1LL << v`. -/
def applyBitFlags (underlying : BaseType) : List Int → Except String (List Int)
  | [] => .ok []
  | v :: rest =>
    if SizeOf underlying * 8 ≤ castSizeT v then
      .error "bit flag out of range of underlying integral type"
    else
      match applyBitFlags underlying rest with
      | .error e => .error e
      | .ok rest' => .ok (toInt64 (2 ^ castSizeT v) :: rest')

theorem castSizeT_nonneg_small {v : Int} (h0 : 0 ≤ v) (h1 : v < 2 ^ 63) :
    castSizeT v = v.toNat := by
  unfold castSizeT
  have e63 : (2 : Int) ^ 63 = 9223372036854775808 := by norm_num
  have e64 : (2 : Int) ^ 64 = 18446744073709551616 := by norm_num
  rw [e64]
  rw [e63] at h1
  have hmod : v % 18446744073709551616 = v := by omega
  rw [hmod]

theorem castSizeT_neg {v : Int} (h0 : v < 0) (h1 : -(2 ^ 63) ≤ v) :
    2 ^ 63 ≤ castSizeT v := by
  unfold castSizeT
  have e63 : (2 : Int) ^ 63 = 9223372036854775808 := by norm_num
  have e64 : (2 : Int) ^ 64 = 18446744073709551616 := by norm_num
  rw [e64]
  rw [e63] at h1
  have h2 : (2 : Nat) ^ 63 = 9223372036854775808 := by norm_num
  rw [h2]
  omega

theorem toInt64_small {x : Int} (h0 : 0 ≤ x) (h1 : x < 2 ^ 63) : toInt64 x = x := by
  unfold toInt64
  have e63 : (2 : Int) ^ 63 = 9223372036854775808 := by norm_num
  have e64 : (2 : Int) ^ 64 = 18446744073709551616 := by norm_num
  rw [e63, e64]
  rw [e63] at h1
  omega

theorem sizeOf_mul8_le_64 (bt : BaseType) : SizeOf bt * 8 ≤ 64 := by
  cases bt <;> norm_num [SizeOf]

theorem applyBitFlags_ok (bt : BaseType) :
    ∀ vals, (∀ v ∈ vals, -(2 ^ 63) ≤ v ∧ v < 2 ^ 63) →
      ∀ out, applyBitFlags bt vals = .ok out →
        out = vals.map (fun v => toInt64 (2 ^ castSizeT v)) ∧
        (∀ v ∈ vals, 0 ≤ v ∧ v < ((SizeOf bt * 8 : Nat) : Int)) := by
  intro vals
  induction vals with
  | nil =>
    intro _ out h
    cases h
    exact ⟨rfl, fun v hv => absurd hv (List.not_mem_nil v)⟩
  | cons v rest ih =>
    intro hr out h
    simp only [applyBitFlags] at h
    split at h
    · cases h
    · rename_i hcond
      cases hrec : applyBitFlags bt rest with
      | error e => rw [hrec] at h; cases h
      | ok rest' =>
        rw [hrec] at h
        cases h
        obtain ⟨ho, hb⟩ := ih (fun x hx => hr x (List.mem_cons_of_mem _ hx)) rest' hrec
        obtain ⟨hlo, hhi⟩ := hr v (List.mem_cons_self _ _)
        have hk : castSizeT v < SizeOf bt * 8 := Nat.not_le.mp hcond
        have hb64 : SizeOf bt * 8 ≤ 64 := sizeOf_mul8_le_64 bt
        have hv0 : 0 ≤ v := by
          by_contra hneg
          push_neg at hneg
          have hc := castSizeT_neg hneg hlo
          have h63 : (64 : Nat) ≤ 2 ^ 63 := by norm_num
          omega
        have hcast : castSizeT v = v.toNat := castSizeT_nonneg_small hv0 hhi
        refine ⟨by rw [ho, List.map_cons], ?_⟩
        intro x hx
        rcases List.mem_cons.1 hx with rfl | hx'
        · refine ⟨hv0, ?_⟩
          rw [hcast] at hk
          omega
        · exact hb x hx'

theorem applyBitFlags_err (bt : BaseType) :
    ∀ vals, (∀ v ∈ vals, -(2 ^ 63) ≤ v ∧ v < 2 ^ 63) →
      (∃ v ∈ vals, ((SizeOf bt * 8 : Nat) : Int) ≤ v) →
      applyBitFlags bt vals = .error "bit flag out of range of underlying integral type" := by
  intro vals
  induction vals with
  | nil =>
    rintro _ ⟨v, hv, _⟩
    cases hv
  | cons v rest ih =>
    rintro hr ⟨x, hx, hxge⟩
    simp only [applyBitFlags]
    by_cases hcond : SizeOf bt * 8 ≤ castSizeT v
    · rw [if_pos hcond]
    · rw [if_neg hcond]
      have hxrest : x ∈ rest := by
        rcases List.mem_cons.1 hx with rfl | h'
        · exfalso
          obtain ⟨_, hhi⟩ := hr x (List.mem_cons_self _ _)
          have hx0 : 0 ≤ x := le_trans (Int.natCast_nonneg _) hxge
          have hc := castSizeT_nonneg_small hx0 hhi
          apply hcond
          rw [hc]
          omega
        · exact h'
      rw [ih (fun y hy => hr y (List.mem_cons_of_mem _ hy)) ⟨x, hxrest, hxge⟩]

/-- **C4**: with the `bit_flags` attribute, `ParseEnum` replaces each
enumerator value `v` by `1LL << v` after the body is parsed; the parse fails
with the range error whenever some pre-transform value satisfies
`v ≥ bit_width(underlying)` (the `size_t` cast also rejects every negative
value); on success every pre-transform value lies in `[0, bit_width)`, and
every rewritten value fits the underlying type's bit width in the sense of
`CheckBitsFit`. -/
theorem c4_bit_flags (bt : BaseType) (vals : List Int)
    (hr : ∀ v ∈ vals, -(2 ^ 63) ≤ v ∧ v < 2 ^ 63) :
    (∀ out, applyBitFlags bt vals = .ok out →
      out = vals.map (fun v => toInt64 (2 ^ castSizeT v)) ∧
      (∀ v ∈ vals, 0 ≤ v ∧ v < ((SizeOf bt * 8 : Nat) : Int)) ∧
      (∀ w ∈ out, checkBitsFit w (SizeOf bt * 8) = true)) ∧
    ((∃ v ∈ vals, ((SizeOf bt * 8 : Nat) : Int) ≤ v) →
      applyBitFlags bt vals = .error "bit flag out of range of underlying integral type") := by
  refine ⟨?_, applyBitFlags_err bt vals hr⟩
  intro out hok
  obtain ⟨ho, hb⟩ := applyBitFlags_ok bt vals hr out hok
  refine ⟨ho, hb, ?_⟩
  intro w hw
  rw [ho] at hw
  obtain ⟨v, hv, rfl⟩ := List.mem_map.1 hw
  obtain ⟨h0, h1⟩ := hb v hv
  have hcast : castSizeT v = v.toNat := castSizeT_nonneg_small h0 (hr v hv).2
  have hk : castSizeT v < SizeOf bt * 8 := by
    rw [hcast]
    omega
  have hb64 : SizeOf bt * 8 ≤ 64 := sizeOf_mul8_le_64 bt
  by_cases h64 : SizeOf bt * 8 = 64
  · rw [h64]
    unfold checkBitsFit
    rw [if_neg (by omega)]
  · have hblt : SizeOf bt * 8 < 64 := lt_of_le_of_ne hb64 h64
    have hpow : (2 : Int) ^ castSizeT v < 2 ^ 63 :=
      pow_lt_pow_right₀ one_lt_two (by omega)
    have htoi : toInt64 (2 ^ castSizeT v) = 2 ^ castSizeT v :=
      toInt64_small (by positivity) hpow
    rw [htoi, checkBitsFit_iff _ _ hblt]
    left
    exact ⟨by positivity, pow_lt_pow_right₀ one_lt_two hk⟩

/-- Witness for C4 at the spec's bit-flags scenario
(`enum E : ubyte (bit_flags) \x7b R, G, B \x7d` has pre-transform values
`0, 1, 3` here): values become `1, 2, 8`, and a value `9 ≥ 8` is rejected. -/
theorem c4_bit_flags_witness :
    applyBitFlags BaseType.UCHAR [9] =
      .error "bit flag out of range of underlying integral type" ∧
    applyBitFlags BaseType.UCHAR [0, 1, 3] = .ok [1, 2, 8] := by
  have hr9 : ∀ v ∈ [(9 : Int)], -(2 ^ 63) ≤ v ∧ v < 2 ^ 63 := by
    intro v hv
    simp at hv
    subst hv
    constructor <;> norm_num
  constructor
  · exact (c4_bit_flags BaseType.UCHAR [9] hr9).2 ⟨9, by simp, by norm_num [SizeOf]⟩
  · rfl

/-! ### `ParseAnyValue` / `ParseTable` (claims C5 and C6) -/

/-- A `FieldDef` as seen by the value parser: its name, the base type of its
declared type, the default constant, and the type references resolved through
the registry — for a union field, `unionTags` is the enum's value→member
table (backing `ReverseLookup`, with members given as registry indices); for
a struct field, `structRef` is the registry index of its `StructDef`. -/
structure FieldM where
  name : String
  base : BaseType
  dflt : Int := 0
  unionTags : List (Int × Nat) := []
  structRef : Option Nat := none
  deriving DecidableEq, Repr

/-- A `StructDef` as seen by the value parser. -/
structure StructM where
  name : String
  fixed : Bool
  mfields : List FieldM
  deriving DecidableEq, Repr

/-- A parsed-literal value: integer scalars and object literals.  (The claims
under verification only involve these two forms.) -/
inductive LitVal where
  | int (v : Int)
  | obj (entries : List (String × LitVal))

/-- One entry of `field_stack_`: the parsed `Value`'s constant and the
`FieldDef` it belongs to.  The head of the list is the most recently pushed
entry (`field_stack_.back()`). -/
abbrev StackEntry := Int × FieldM

/-- Modelled from the spec: `EnumDef::ReverseLookup` — find the union member
whose enum value equals the tag. -/
def reverseLookup (tags : List (Int × Nat)) (idx : Nat) : Option Nat :=
  (tags.find? (fun t => t.1 = (idx : Int))).map (fun t => t.2)

/-- `atot<unsigned char>` on the tag constant: `CheckBitsFit(val, 8)` then the
cast to `unsigned char` (reduction mod 256). -/
def atotU8 (c : Int) : Except String Nat :=
  match atotCheck c 8 with
  | .error e => .error e
  | .ok v => .ok ((v % 256).toNat)

/-- The per-field action of the serialization loop of `ParseTable`, reduced to
its error behaviour: pointer types (`AddOffset` / `SerializeStruct`) never
range-check; scalar types go through `atot<CTYPE>` on the parsed constant and
the field's default. -/
def EmitField (v : Int) (fld : FieldM) : Except String Unit :=
  match fld.base with
  | .STRING => .ok ()
  | .VECTOR => .ok ()
  | .STRUCT => .ok ()
  | .UNION => .ok ()
  | bt => emitScalarField v fld.dflt bt

/-- The serialization loop of `ParseTable` over the top `fieldn` entries of
`field_stack_`, reduced to its error behaviour.  The loop walks the stack from
the most recent entry backwards, which is head-first here; for a fixed struct
(`sortbysize = false`, single `size = 1` pass) this is exactly the source's
emission order, and for a table the size buckets only permute the same set of
per-field range checks. -/
def EmitFields : List StackEntry → Except String Unit
  | [] => .ok ()
  | (v, fld) :: rest =>
    match EmitField v fld with
    | .error e => .error e
    | .ok _ => EmitFields rest

mutual

/-- `Parser::ParseAnyValue`, for the value forms of `LitVal`: a union-typed
field requires the most recently pushed `field_stack_` entry to be a
`UTYPE`-tag field, reads the tag via `atot<unsigned char>`, resolves the
member table through `ReverseLookup` ("illegal type id" when absent) and
parses the payload as that table; a struct-typed field parses its object; any
other type takes the scalar path (`ParseSingleValue`, integer constants in
this model). -/
def ParseAnyValue (reg : List StructM) (stack : List StackEntry) (fld : FieldM)
    (lit : LitVal) : Except String Int :=
  match fld.base with
  | .UNION =>
    match stack with
    | [] => .error ("missing type field before this union value: " ++ fld.name)
    | (c, top) :: _ =>
      if top.base ≠ BaseType.UTYPE then
        .error ("missing type field before this union value: " ++ fld.name)
      else
        match atotU8 c with
        | .error e => .error e
        | .ok idx =>
          match reverseLookup fld.unionTags idx with
          | none => .error ("illegal type id for: " ++ fld.name)
          | some si =>
            match reg.get? si with
            | none => .error "union member not in registry"
            | some sd =>
              match lit with
              | .obj entries => ParseTable reg stack sd entries
              | .int _ => .error ("expecting: \x7b instead got: integer constant")
  | .STRUCT =>
    match fld.structRef with
    | none => .error "struct reference not in registry"
    | some si =>
      match reg.get? si with
      | none => .error "struct reference not in registry"
      | some sd =>
        match lit with
        | .obj entries => ParseTable reg stack sd entries
        | .int _ => .error ("expecting: \x7b instead got: integer constant")
  | _ =>
    match lit with
    | .int v => .ok v
    | .obj _ => .error ("cannot parse value starting with: \x7b")
termination_by (sizeOf lit, 0)

/-- `Parser::ParseTable`: parse `name : value` pairs (a bare `\x7d` first is
the source's expecting-identifier error), looking each key up in the field
table ("unknown field" when absent), enforcing declaration order and position
for fixed structs ("struct field appearing out of order"), parsing each value
with the current `field_stack_` and pushing the result; after the pairs, a
fixed struct must have been given exactly its declared field count
("incomplete struct initialization"); then the top `fieldn` stack entries are
emitted (range checks) and popped. -/
def ParseTable (reg : List StructM) (stack : List StackEntry) (sd : StructM)
    (entries : List (String × LitVal)) : Except String Int :=
  match entries with
  | [] => .error "expecting: identifier instead got: \x7d"
  | e :: rest =>
    match ParseTableFields reg stack sd (e :: rest) 0 with
    | .error e => .error e
    | .ok (stack', fieldn) =>
      if sd.fixed ∧ fieldn ≠ sd.mfields.length then
        .error ("incomplete struct initialization: " ++ sd.name)
      else
        match EmitFields (stack'.take fieldn) with
        | .error e => .error e
        | .ok _ => .ok 0
termination_by (sizeOf entries, 1)

/-- The key/value loop of `ParseTable`. -/
def ParseTableFields (reg : List StructM) (stack : List StackEntry) (sd : StructM)
    (entries : List (String × LitVal)) (fieldn : Nat) :
    Except String (List StackEntry × Nat) :=
  match entries with
  | [] => .ok (stack, fieldn)
  | (key, lv) :: rest =>
    match sd.mfields.find? (fun f => f.name = key) with
    | none => .error ("unknown field: " ++ key)
    | some fld =>
      if sd.fixed ∧ (sd.mfields.length ≤ fieldn ∨ sd.mfields.get? fieldn ≠ some fld) then
        .error ("struct field appearing out of order: " ++ key)
      else
        match ParseAnyValue reg stack fld lv with
        | .error e => .error e
        | .ok c => ParseTableFields reg ((c, fld) :: stack) sd rest (fieldn + 1)
termination_by (sizeOf entries, 0)

end

/-- The spec's union scenario registry: `table A \x7b \x7d`,
`table B \x7b x:int; \x7d`, `union U \x7b A, B \x7d` (values 1 and 2),
`table R \x7b u:U; \x7d` with the auto-generated `u_type` tag field. -/
def sampleA : StructM := ⟨"A", false, []⟩

def sampleB : StructM := ⟨"B", false, [⟨"x", BaseType.INT, 0, [], none⟩]⟩

def sampleR : StructM :=
  ⟨"R", false,
    [⟨"u_type", BaseType.UTYPE, 0, [], none⟩,
     ⟨"u", BaseType.UNION, 0, [(1, 0), (2, 1)], none⟩]⟩

def sampleReg : List StructM := [sampleA, sampleB, sampleR]

/-- **C5**: `ParseAnyValue` on a union-typed field fails with
"missing type field before this union value" when `field_stack_` is empty or
its most recent entry is not a `UTYPE`-tag field; with a `UTYPE` tag on top,
the member table is chosen by reverse-looking-up the tag constant in the
union's enum, an unmatched tag raising "illegal type id"; in particular, in
the spec's scenario, writing `u : \x7b…\x7d` before `u_type` makes the table
parse fail with the missing-type-field error at `u`. -/
theorem c5_union_dispatch :
    (∀ (reg : List StructM) (fld : FieldM) (lit : LitVal), fld.base = BaseType.UNION →
      ParseAnyValue reg [] fld lit =
        .error ("missing type field before this union value: " ++ fld.name)) ∧
    (∀ (reg : List StructM) (fld : FieldM) (lit : LitVal) (c : Int) (top : FieldM)
      (rest : List StackEntry), fld.base = BaseType.UNION → top.base ≠ BaseType.UTYPE →
      ParseAnyValue reg ((c, top) :: rest) fld lit =
        .error ("missing type field before this union value: " ++ fld.name)) ∧
    (∀ (reg : List StructM) (fld : FieldM) (lit : LitVal) (c : Int) (top : FieldM)
      (rest : List StackEntry) (idx : Nat),
      fld.base = BaseType.UNION → top.base = BaseType.UTYPE →
      atotU8 c = .ok idx → reverseLookup fld.unionTags idx = none →
      ParseAnyValue reg ((c, top) :: rest) fld lit =
        .error ("illegal type id for: " ++ fld.name)) ∧
    (∀ (reg : List StructM) (fld : FieldM) (entries : List (String × LitVal)) (c : Int)
      (top : FieldM) (rest : List StackEntry) (idx si : Nat) (sd : StructM),
      fld.base = BaseType.UNION → top.base = BaseType.UTYPE →
      atotU8 c = .ok idx → reverseLookup fld.unionTags idx = some si →
      reg.get? si = some sd →
      ParseAnyValue reg ((c, top) :: rest) fld (.obj entries) =
        ParseTable reg ((c, top) :: rest) sd entries) ∧
    ParseTable sampleReg [] sampleR [("u", .obj [("x", .int 1)]), ("u_type", .int 2)] =
      .error ("missing type field before this union value: u") := by
  refine ⟨?_, ?_, ?_, ?_, ?_⟩
  · intro reg fld lit hU
    obtain ⟨nm, bt, d, tags, sref⟩ := fld
    dsimp only at hU
    subst hU
    cases lit <;> simp [ParseAnyValue]
  · intro reg fld lit c top rest hU hTop
    obtain ⟨nm, bt, d, tags, sref⟩ := fld
    dsimp only at hU
    subst hU
    cases lit <;> simp [ParseAnyValue, if_pos hTop]
  · intro reg fld lit c top rest idx hU hTop hAtot hRev
    obtain ⟨nm, bt, d, tags, sref⟩ := fld
    dsimp only at hU hRev
    subst hU
    cases lit <;> simp [ParseAnyValue, hTop, hAtot, hRev]
  · intro reg fld entries c top rest idx si sd hU hTop hAtot hRev hGet
    obtain ⟨nm, bt, d, tags, sref⟩ := fld
    dsimp only at hU hRev
    subst hU
    rw [List.get?_eq_getElem?] at hGet
    simp [ParseAnyValue, hTop, hAtot, hRev, hGet]
  · simp [ParseTable, ParseTableFields, ParseAnyValue, sampleR, sampleReg, List.find?]

/-- Witness for C5: the concrete reversed-order scenario, and the matched-tag
dispatch at tag 2 choosing table `B`. -/
theorem c5_union_dispatch_witness :
    ParseTable sampleReg [] sampleR [("u", .obj [("x", .int 1)]), ("u_type", .int 2)] =
      .error ("missing type field before this union value: u") ∧
    ParseAnyValue sampleReg [(2, ⟨"u_type", BaseType.UTYPE, 0, [], none⟩)]
        (⟨"u", BaseType.UNION, 0, [(1, 0), (2, 1)], none⟩) (.obj [("x", .int 5)]) =
      ParseTable sampleReg [(2, ⟨"u_type", BaseType.UTYPE, 0, [], none⟩)] sampleB
        [("x", .int 5)] := by
  have hAtot : atotU8 2 = .ok 2 := by
    have hfit : checkBitsFit 2 8 = true :=
      (checkBitsFit_iff 2 8 (by norm_num)).mpr (Or.inl ⟨by norm_num, by norm_num⟩)
    simp [atotU8, atotCheck, hfit]
  refine ⟨c5_union_dispatch.2.2.2.2, ?_⟩
  exact c5_union_dispatch.2.2.2.1 sampleReg _ [("x", .int 5)] 2 _ [] 2 1 sampleB
    rfl rfl hAtot rfl rfl

/-! ### Fixed-struct object literals (claim C6) -/

theorem isScalar_ne_ptr (bt : BaseType) (h : IsScalar bt = true) :
    bt ≠ BaseType.UNION ∧ bt ≠ BaseType.STRUCT := by
  cases bt <;> simp_all [IsScalar, BaseType.ord]

/-- In a field list with distinct names, `find?` by the name of the field at
position `n` returns exactly that field. -/
theorem find?_name_of_get (fs : List FieldM) (hnd : (fs.map FieldM.name).Nodup) :
    ∀ (n : Nat) (fld : FieldM), fs.get? n = some fld →
      fs.find? (fun f => f.name = fld.name) = some fld := by
  induction fs with
  | nil => intro n fld h; cases h
  | cons g gs ih =>
    intro n fld h
    cases n with
    | zero =>
      rw [List.get?_cons_zero] at h
      injection h with h
      subst h
      exact List.find?_cons_of_pos _ (by simp)
    | succ n =>
      rw [List.get?_cons_succ] at h
      have hmem : fld ∈ gs := List.get?_mem h
      have hname : fld.name ∈ gs.map FieldM.name := List.mem_map_of_mem _ hmem
      rw [List.map_cons, List.nodup_cons] at hnd
      have hne : g.name ≠ fld.name := fun he => hnd.1 (he ▸ hname)
      rw [List.find?_cons_of_neg _ (by simp [hne]), ih hnd.2 n fld h]

/-- A scalar-typed field's value parse always succeeds with the literal's
integer (all range checks are deferred to serialization). -/
theorem ParseAnyValue_int_ok (reg : List StructM) (stack : List StackEntry)
    (fld : FieldM) (v : Int) (hU : fld.base ≠ BaseType.UNION)
    (hS : fld.base ≠ BaseType.STRUCT) :
    ParseAnyValue reg stack fld (.int v) = .ok v := by
  obtain ⟨nm, bt, d, tags, sref⟩ := fld
  dsimp only at hU hS
  cases stack with
  | nil =>
    cases bt <;> first
      | exact absurd rfl hU
      | exact absurd rfl hS
      | simp [ParseAnyValue]
  | cons e rest =>
    obtain ⟨c, top⟩ := e
    cases bt <;> first
      | exact absurd rfl hU
      | exact absurd rfl hS
      | simp [ParseAnyValue]

theorem EmitFields_ok (l : List StackEntry)
    (h : ∀ e ∈ l, EmitField e.1 e.2 = .ok ()) : EmitFields l = .ok () := by
  induction l with
  | nil => rfl
  | cons e rest ih =>
    obtain ⟨v, fld⟩ := e
    have he := h (v, fld) (List.mem_cons_self _ _)
    simp only [EmitFields, he]
    exact ih (fun e hm => h e (List.mem_cons_of_mem _ hm))

/-- The key/value loop of `ParseTable`, on a fixed struct with distinct field
names and no union/struct-typed members, steps through a block of integer
pairs naming the fields at positions `n, n+1, …` in declaration order: each
pair passes the position check and pushes `(value, field)` onto
`field_stack_`. -/
theorem ParseTableFields_walk (reg : List StructM) (sd : StructM)
    (hfix : sd.fixed = true) (hnd : (sd.mfields.map FieldM.name).Nodup)
    (hsc : ∀ f ∈ sd.mfields, f.base ≠ BaseType.UNION ∧ f.base ≠ BaseType.STRUCT) :
    ∀ (pre suf : List (String × LitVal)) (stack : List StackEntry) (n : Nat),
      (∀ p ∈ pre, ∃ v, p.2 = LitVal.int v) →
      pre.map Prod.fst = ((sd.mfields.drop n).take pre.length).map FieldM.name →
      n + pre.length ≤ sd.mfields.length →
      ∃ pushed : List StackEntry,
        pushed.length = pre.length ∧
        (∀ e ∈ pushed, ∃ p ∈ pre, ∃ f, f ∈ sd.mfields ∧ p.1 = f.name ∧
          p.2 = LitVal.int e.1 ∧ e.2 = f) ∧
        ParseTableFields reg stack sd (pre ++ suf) n =
          ParseTableFields reg (pushed ++ stack) sd suf (n + pre.length) := by
  intro pre
  induction pre with
  | nil =>
    intro suf stack n _ _ _
    exact ⟨[], rfl, by simp, by simp⟩
  | cons p pre ih =>
    intro suf stack n hints hkeys hlen
    obtain ⟨key, lv⟩ := p
    obtain ⟨v, hv⟩ := hints (key, lv) (List.mem_cons_self _ _)
    dsimp only at hv
    subst hv
    have hnlt : n < sd.mfields.length := by
      simp only [List.length_cons] at hlen; omega
    obtain ⟨fldn, hget⟩ : ∃ f, sd.mfields.get? n = some f :=
      ⟨_, List.get?_eq_get hnlt⟩
    have hdrop : sd.mfields.drop n = fldn :: sd.mfields.drop (n + 1) := by
      rw [List.drop_eq_get_cons hnlt]
      rw [List.get?_eq_get hnlt] at hget
      injection hget with hget
      rw [hget]
    rw [hdrop] at hkeys
    simp only [List.map_cons, List.length_cons, List.take_succ_cons,
      List.map_cons, Prod.fst] at hkeys
    injection hkeys with hkey hkeys
    have hfmem : fldn ∈ sd.mfields := List.get?_mem hget
    have hfind : sd.mfields.find? (fun f => f.name = key) = some fldn := by
      rw [hkey]; exact find?_name_of_get sd.mfields hnd n fldn hget
    have hpav : ParseAnyValue reg stack fldn (.int v) = .ok v :=
      ParseAnyValue_int_ok reg stack fldn v (hsc fldn hfmem).1 (hsc fldn hfmem).2
    have hnle : ¬ sd.mfields.length ≤ n := not_le.mpr hnlt
    have hgetE := hget
    rw [List.get?_eq_getElem?] at hgetE
    have hstep : ParseTableFields reg stack sd (((key, LitVal.int v) :: pre) ++ suf) n =
        ParseTableFields reg ((v, fldn) :: stack) sd (pre ++ suf) (n + 1) := by
      rw [List.cons_append]
      simp [ParseTableFields, hfind, hpav, hgetE, hnle]
    obtain ⟨pushed, hplen, hprov, heq⟩ :=
      ih suf ((v, fldn) :: stack) (n + 1) (fun p hp => hints p (List.mem_cons_of_mem _ hp))
        hkeys (by simp only [List.length_cons] at hlen; omega)
    refine ⟨pushed ++ [(v, fldn)], by simp [hplen], ?_, ?_⟩
    · intro e he
      rcases List.mem_append.mp he with he | he
      · obtain ⟨p, hp, f, hf, h1, h2, h3⟩ := hprov e he
        exact ⟨p, List.mem_cons_of_mem _ hp, f, hf, h1, h2, h3⟩
      · rw [List.mem_singleton] at he
        subst he
        exact ⟨(key, LitVal.int v), List.mem_cons_self _ _, fldn, hfmem, hkey, rfl, rfl⟩
    · rw [hstep, heq, List.append_assoc, List.singleton_append]
      congr 1
      simp only [List.length_cons]
      omega

/-- `ParseTable` on a non-empty entry list, unfolded one step. -/
theorem ParseTable_cons (reg : List StructM) (stack : List StackEntry) (sd : StructM)
    (e : String × LitVal) (rest : List (String × LitVal)) :
    ParseTable reg stack sd (e :: rest) =
      match ParseTableFields reg stack sd (e :: rest) 0 with
      | .error er => .error er
      | .ok (stack', fieldn) =>
        if sd.fixed ∧ fieldn ≠ sd.mfields.length then
          .error ("incomplete struct initialization: " ++ sd.name)
        else
          match EmitFields (stack'.take fieldn) with
          | .error er => .error er
          | .ok _ => .ok 0 := by
  simp [ParseTable]

/-- **C6**: on a fixed struct with distinct scalar fields, `ParseTable`
(1) fails with "struct field appearing out of order" at the first key that is
a known field name but not the field at the current position in declaration
order, (2) fails with "incomplete struct initialization" when the supplied
pairs are a proper prefix of the declaration order (count differs from the
declared field count), and (3) succeeds when all fields are supplied in
declaration order and every constant passes the range checks. -/
theorem c6_fixed_struct_order (sd : StructM) (hfix : sd.fixed = true)
    (hnd : (sd.mfields.map FieldM.name).Nodup)
    (hsc : ∀ f ∈ sd.mfields, IsScalar f.base = true) :
    (∀ (reg : List StructM) (stack : List StackEntry) (pre : List (String × LitVal))
       (key : String) (lv : LitVal) (rest : List (String × LitVal)),
       (∀ p ∈ pre, ∃ v, p.2 = LitVal.int v) →
       pre.map Prod.fst = (sd.mfields.take pre.length).map FieldM.name →
       key ∈ sd.mfields.map FieldM.name →
       (sd.mfields.get? pre.length).map FieldM.name ≠ some key →
       ParseTable reg stack sd (pre ++ (key, lv) :: rest) =
         .error ("struct field appearing out of order: " ++ key)) ∧
    (∀ (reg : List StructM) (stack : List StackEntry) (entries : List (String × LitVal)),
       entries ≠ [] →
       (∀ p ∈ entries, ∃ v, p.2 = LitVal.int v) →
       entries.map Prod.fst = (sd.mfields.take entries.length).map FieldM.name →
       entries.length ≠ sd.mfields.length →
       ParseTable reg stack sd entries =
         .error ("incomplete struct initialization: " ++ sd.name)) ∧
    (∀ (reg : List StructM) (stack : List StackEntry) (entries : List (String × LitVal)),
       entries ≠ [] →
       (∀ p ∈ entries, ∃ v, p.2 = LitVal.int v) →
       entries.map Prod.fst = sd.mfields.map FieldM.name →
       (∀ p ∈ entries, ∀ v : Int, p.2 = LitVal.int v →
         ∀ f ∈ sd.mfields, EmitField v f = Except.ok ()) →
       ParseTable reg stack sd entries = Except.ok 0) := by
  have hsc' : ∀ f ∈ sd.mfields, f.base ≠ BaseType.UNION ∧ f.base ≠ BaseType.STRUCT :=
    fun f hf => isScalar_ne_ptr f.base (hsc f hf)
  refine ⟨?_, ?_, ?_⟩
  · intro reg stack pre key lv rest hints hpre hkeymem hmis
    have hplen : pre.length ≤ sd.mfields.length := by
      have := congrArg List.length hpre
      simp only [List.length_map, List.length_take] at this
      omega
    obtain ⟨pushed, hpl, _, heq⟩ :=
      ParseTableFields_walk reg sd hfix hnd hsc' pre ((key, lv) :: rest) stack 0 hints
        (by simpa using hpre) (by simpa using hplen)
    obtain ⟨f0, hf0, hfn0⟩ := List.mem_map.mp hkeymem
    have hsome : (sd.mfields.find? (fun f => f.name = key)).isSome :=
      List.find?_isSome.mpr ⟨f0, hf0, by simp [hfn0]⟩
    obtain ⟨fld, hfld⟩ := Option.isSome_iff_exists.mp hsome
    have hfname : fld.name = key := by simpa using List.find?_some hfld
    have hcond : sd.mfields.length ≤ pre.length ∨ ¬ sd.mfields[pre.length]? = some fld := by
      by_cases hk : sd.mfields.length ≤ pre.length
      · exact Or.inl hk
      · refine Or.inr fun hgetc => hmis ?_
        rw [List.get?_eq_getElem?, hgetc]
        simp [hfname]
    have herr : ParseTableFields reg (pushed ++ stack) sd ((key, lv) :: rest) pre.length =
        .error ("struct field appearing out of order: " ++ key) := by
      rcases hcond with hc | hc
      · simp [ParseTableFields, hfld, hfix, hc]
      · simp [ParseTableFields, hfld, hfix, hc]
    obtain ⟨e0, tl, hsplit⟩ : ∃ e0 tl, pre ++ (key, lv) :: rest = e0 :: tl := by
      cases pre with
      | nil => exact ⟨_, _, rfl⟩
      | cons q qs => exact ⟨_, _, rfl⟩
    rw [hsplit, ParseTable_cons, ← hsplit, heq, Nat.zero_add, herr]
  · intro reg stack entries hne hints hkeys hlen
    have hle : entries.length ≤ sd.mfields.length := by
      have := congrArg List.length hkeys
      simp only [List.length_map, List.length_take] at this
      omega
    obtain ⟨pushed, hpl, hprov, heq⟩ :=
      ParseTableFields_walk reg sd hfix hnd hsc' entries [] stack 0 hints
        (by simpa using hkeys) (by simpa using hle)
    have heqok : ParseTableFields reg stack sd entries 0 =
        .ok (pushed ++ stack, entries.length) := by
      conv_lhs => rw [← List.append_nil entries]
      rw [heq, Nat.zero_add]
      simp [ParseTableFields]
    obtain ⟨e0, tl, hsplit⟩ := List.exists_cons_of_ne_nil hne
    rw [hsplit, ParseTable_cons, ← hsplit]
    simp only [heqok]
    rw [if_pos ⟨hfix, hlen⟩]
  · intro reg stack entries hne hints hkeys hfit
    have hlen : entries.length = sd.mfields.length := by
      have := congrArg List.length hkeys
      simpa using this
    obtain ⟨pushed, hpl, hprov, heq⟩ :=
      ParseTableFields_walk reg sd hfix hnd hsc' entries [] stack 0 hints
        (by rw [List.drop_zero, hlen, List.take_length]; exact hkeys)
        (by simpa using hlen.le)
    have heqok : ParseTableFields reg stack sd entries 0 =
        .ok (pushed ++ stack, entries.length) := by
      conv_lhs => rw [← List.append_nil entries]
      rw [heq, Nat.zero_add]
      simp [ParseTableFields]
    have htake : (pushed ++ stack).take entries.length = pushed := by
      rw [← hpl]
      exact List.take_left pushed stack
    have hemit : EmitFields pushed = .ok () := by
      refine EmitFields_ok pushed fun e he => ?_
      obtain ⟨p, hp, f, hf, h1, h2, h3⟩ := hprov e he
      rw [h3]
      exact hfit p hp e.1 h2 f hf
    obtain ⟨e0, tl, hsplit⟩ := List.exists_cons_of_ne_nil hne
    rw [hsplit, ParseTable_cons, ← hsplit]
    simp only [heqok]
    rw [if_neg (fun h => h.2 hlen), htake, hemit]

/-- The C6 witness struct: `struct S \x7b x:int; y:int; \x7d`. -/
def sampleS : StructM :=
  ⟨"S", true, [⟨"x", BaseType.INT, 0, [], none⟩, ⟨"y", BaseType.INT, 0, [], none⟩]⟩

/-- Witness for C6 on `struct S \x7b x:int; y:int; \x7d`: the literal
`\x7b y:2 \x7d` is out of order, `\x7b x:1 \x7d` is incomplete, and
`\x7b x:1, y:2 \x7d` parses. -/
theorem c6_fixed_struct_order_witness :
    ParseTable [] [] sampleS [("y", LitVal.int 2)] =
      .error "struct field appearing out of order: y" ∧
    ParseTable [] [] sampleS [("x", LitVal.int 1)] =
      .error "incomplete struct initialization: S" ∧
    ParseTable [] [] sampleS [("x", LitVal.int 1), ("y", LitVal.int 2)] = .ok 0 := by
  have hfit32 : ∀ v : Int, 0 ≤ v → v < 2 ^ 31 → checkBitsFit v 32 = true := by
    intro v h0 hlt
    exact (checkBitsFit_iff v 32 (by norm_num)).mpr
      (Or.inl ⟨h0, lt_trans hlt (by norm_num)⟩)
  have hEF : ∀ v : Int, 0 ≤ v → v < 2 ^ 31 → ∀ f ∈ sampleS.mfields,
      EmitField v f = Except.ok () := by
    intro v h0 hlt f hf
    have hv := hfit32 v h0 hlt
    have h00 := hfit32 0 le_rfl (by norm_num)
    simp only [sampleS, List.mem_cons, List.not_mem_nil, or_false] at hf
    rcases hf with rfl | rfl <;>
      simp [EmitField, emitScalarField, emitScalarChecks, atotCheck, hv, h00, SizeOf]
  refine ⟨?_, ?_, ?_⟩
  · exact (c6_fixed_struct_order sampleS rfl (by decide) (by decide)).1 [] [] []
      "y" (.int 2) [] (by simp) rfl (by decide) (by decide)
  · exact (c6_fixed_struct_order sampleS rfl (by decide) (by decide)).2.1 [] []
      [("x", LitVal.int 1)] (by simp) (by simp) (by decide) (by decide)
  · refine (c6_fixed_struct_order sampleS rfl (by decide) (by decide)).2.2 [] []
      [("x", LitVal.int 1), ("y", LitVal.int 2)] (by simp) ?_ (by decide) ?_
    · intro p hp
      simp only [List.mem_cons, List.not_mem_nil, or_false] at hp
      rcases hp with rfl | rfl
      · exact ⟨1, rfl⟩
      · exact ⟨2, rfl⟩
    · intro p hp v hv f hf
      simp only [List.mem_cons, List.not_mem_nil, or_false] at hp
      rcases hp with rfl | rfl <;>
        · dsimp only at hv
          injection hv with hv
          subst hv
          exact hEF _ (by norm_num) (by norm_num) f hf

/-! ### The lexer `Parser::Next` (claim C8) -/

/-- The double-quote character, used to spell source error messages. -/
def dq : String := String.singleton (Char.ofNat 34)

/-- ASCII `isdigit`. -/
def isDigitA (c : Char) : Bool := decide ('0' ≤ c) && decide (c ≤ '9')

/-- ASCII `isalpha`. -/
def isAlphaA (c : Char) : Bool :=
  (decide ('a' ≤ c) && decide (c ≤ 'z')) || (decide ('A' ≤ c) && decide (c ≤ 'Z'))

/-- `isalnum(c) || c == '_'`, the identifier-continuation test. -/
def isIdentChar (c : Char) : Bool := isAlphaA c || isDigitA c || decide (c = '_')

/-- Modelled from the spec: the `FLATBUFFERS_GEN_TYPES` table of type keywords
(idl.h): `bool`, `byte`, `ubyte`, `short`, `ushort`, `int`, `uint`, `long`,
`ulong`, `float`, `double`, `string`. -/
def typeKeywords : List (String × BaseType) :=
  [("bool", BaseType.BOOL), ("byte", BaseType.CHAR), ("ubyte", BaseType.UCHAR),
   ("short", BaseType.SHORT), ("ushort", BaseType.USHORT), ("int", BaseType.INT),
   ("uint", BaseType.UINT), ("long", BaseType.LONG), ("ulong", BaseType.ULONG),
   ("float", BaseType.FLOAT), ("double", BaseType.DOUBLE),
   ("string", BaseType.STRING)]

/-- The token produced by one call of `Parser::Next`. -/
inductive Tok where
  | eof
  | punct (c : Char)
  | strConst (s : String)
  | intConst (s : String)
  | floatConst (s : String)
  | typeTok (t : BaseType)
  | tableTok
  | structTok
  | enumTok
  | unionTok
  | namespaceTok
  | rootTypeTok
  | ident (s : String)
  deriving DecidableEq, Repr

/-- The lexer state after one `Parser::Next` call: the token, the remaining
input (`cursor_`), `line_`, `attribute_` and `doc_comment_`. -/
structure LexOut where
  tok : Tok
  rest : List Char
  line : Nat
  attr : String
  doc : String
  deriving DecidableEq, Repr

/-- The string-constant scan loop of `Parser::Next` (the `'\x22'` case):
stop at the closing quote, reject control characters (a NUL terminator
included, so an unterminated string is also an "illegal character in string
constant"), translate the `n`/`t`/`r`/quote/backslash escapes and reject any
other escape code. -/
def scanString (l : List Char) (acc : String) : Except String (String × List Char) :=
  match l with
  | [] => .error "illegal character in string constant"
  | c :: rest =>
    if c = Char.ofNat 34 then .ok (acc, rest)
    else if c.toNat < 32 then .error "illegal character in string constant"
    else if c = Char.ofNat 92 then
      match rest with
      | [] => .error "unknown escape code in string constant"
      | e :: rest2 =>
        if e = 'n' then scanString rest2 (acc.push (Char.ofNat 10))
        else if e = 't' then scanString rest2 (acc.push (Char.ofNat 9))
        else if e = 'r' then scanString rest2 (acc.push (Char.ofNat 13))
        else if e = Char.ofNat 34 then scanString rest2 (acc.push (Char.ofNat 34))
        else if e = Char.ofNat 92 then scanString rest2 (acc.push (Char.ofNat 92))
        else .error "unknown escape code in string constant"
    else scanString rest (acc.push c)
termination_by l.length
decreasing_by all_goals (simp only [List.length_cons]; omega)

/-- The rendering of an illegal character in the error message: printable
characters stand for themselves, others as `code: N` with `N` the (signed)
`char` value. -/
def illegalCharStr (c : Char) : String :=
  if 32 ≤ c.toNat ∧ c.toNat ≤ 126 then String.singleton c
  else "code: " ++ toString (if c.toNat < 128 then (c.toNat : Int) else (c.toNat : Int) - 256)

theorem dropWhile_length_le' {α : Type} (p : α → Bool) (l : List α) :
    (l.dropWhile p).length ≤ l.length := by
  induction l with
  | nil => simp [List.dropWhile]
  | cons a tl ih =>
    rw [List.dropWhile_cons]
    by_cases hp : p a = true
    · simp only [hp, if_true]
      exact le_trans ih (Nat.le_succ _)
    · simp [hp]

theorem dropWhile_tail_lt {α : Type} (p : α → Bool) (l : List α) :
    (l.tail.dropWhile p).length < l.length + 1 :=
  Nat.lt_succ_of_le (le_trans (dropWhile_length_le' _ _) (by cases l <;> simp))

/-- `Parser::Next`'s scan loop: `input` is the text at `cursor_`, `seenNl`
the local `seen_newline` flag (false at entry, `doc` likewise empty at entry
since `Next` clears `doc_comment_`).  Whitespace is skipped (`'\n'` bumping
`line_` and setting `seen_newline`); single-character punctuation returns
itself; a `.` not followed by a digit returns itself, otherwise the
leading-dot float error; a quote scans a string constant; `//` skips to the
end of the line, a third `/` making it a documentation comment that must
follow a newline ("a documentation comment should be on a line on its own")
and whose text after `///` is appended to `doc_comment_`; letters scan an
identifier resolved against the type keywords, `true`/`false` (integer
constants `1`/`0`) and the declaration keywords; digits or `-` scan an
integer or float constant; anything else is an illegal character. -/
def next (input : List Char) (line : Nat) (attr doc : String) (seenNl : Bool) :
    Except String LexOut :=
  match input with
  | [] => .ok ⟨.eof, [], line, attr, doc⟩
  | c :: rest =>
    if c = ' ' ∨ c = Char.ofNat 13 ∨ c = Char.ofNat 9 then
      next rest line attr doc seenNl
    else if c = Char.ofNat 10 then
      next rest (line + 1) attr doc true
    else if c.toNat ∈ [123, 125, 40, 41, 91, 93, 44, 58, 59, 61] then
      .ok ⟨.punct c, rest, line, attr, doc⟩
    else if c = '.' then
      if (rest.head?.map isDigitA).getD false = false then
        .ok ⟨.punct c, rest, line, attr, doc⟩
      else
        .error ("floating point constant can" ++ apos ++ "t start with " ++
          dq ++ "." ++ dq)
    else if c = Char.ofNat 34 then
      match scanString rest "" with
      | .error e => .error e
      | .ok (s, rest2) => .ok ⟨.strConst s, rest2, line, s, doc⟩
    else if c = '/' ∧ rest.head? = some '/' then
      let body := rest.tail.takeWhile (fun ch => ch ≠ Char.ofNat 10)
      let remaining := rest.tail.dropWhile (fun ch => ch ≠ Char.ofNat 10)
      if body.head? = some '/' then
        if seenNl = false then
          .error "a documentation comment should be on a line on its own"
        else
          next remaining line attr (doc ++ String.mk (body.drop 1)) seenNl
      else
        next remaining line attr doc seenNl
    else if isAlphaA c then
      let s := String.mk (c :: rest.takeWhile isIdentChar)
      let rest2 := rest.dropWhile isIdentChar
      match typeKeywords.find? (fun kv => kv.1 = s) with
      | some kv => .ok ⟨.typeTok kv.2, rest2, line, s, doc⟩
      | none =>
        if s = "true" then .ok ⟨.intConst "1", rest2, line, "1", doc⟩
        else if s = "false" then .ok ⟨.intConst "0", rest2, line, "0", doc⟩
        else if s = "table" then .ok ⟨.tableTok, rest2, line, s, doc⟩
        else if s = "struct" then .ok ⟨.structTok, rest2, line, s, doc⟩
        else if s = "enum" then .ok ⟨.enumTok, rest2, line, s, doc⟩
        else if s = "union" then .ok ⟨.unionTok, rest2, line, s, doc⟩
        else if s = "namespace" then .ok ⟨.namespaceTok, rest2, line, s, doc⟩
        else if s = "root_type" then .ok ⟨.rootTypeTok, rest2, line, s, doc⟩
        else .ok ⟨.ident s, rest2, line, s, doc⟩
    else if isDigitA c ∨ c = '-' then
      let ds := rest.takeWhile isDigitA
      let r1 := rest.dropWhile isDigitA
      if r1.head? = some '.' then
        let fs := r1.tail.takeWhile isDigitA
        let r2 := r1.tail.dropWhile isDigitA
        if r2.head? = some 'e' ∨ r2.head? = some 'E' then
          let e0 := (r2.head?).getD 'e'
          let r3 := r2.tail
          if r3.head? = some '+' ∨ r3.head? = some '-' then
            let sg := (r3.head?).getD '+'
            let s := String.mk (c :: ds ++ '.' :: fs ++ e0 :: sg ::
              r3.tail.takeWhile isDigitA)
            .ok ⟨.floatConst s, r3.tail.dropWhile isDigitA, line, s, doc⟩
          else
            let s := String.mk (c :: ds ++ '.' :: fs ++ e0 :: r3.takeWhile isDigitA)
            .ok ⟨.floatConst s, r3.dropWhile isDigitA, line, s, doc⟩
        else
          let s := String.mk (c :: ds ++ '.' :: fs)
          .ok ⟨.floatConst s, r2, line, s, doc⟩
      else
        let s := String.mk (c :: ds)
        .ok ⟨.intConst s, r1, line, s, doc⟩
    else
      .error ("illegal character: " ++ illegalCharStr c)
termination_by input.length
decreasing_by
  all_goals (simp only [List.length_cons]; first | omega | exact dropWhile_tail_lt _ _)

/-- `Parser::Next` proper: `doc_comment_` is cleared and `seen_newline`
starts false on every call. -/
def NextTok (input : List Char) (line : Nat) (attr : String) :
    Except String LexOut :=
  next input line attr "" false

theorem takeWhile_append_nl (body rest : List Char)
    (hb : ∀ ch ∈ body, ch ≠ Char.ofNat 10) :
    List.takeWhile (fun ch => !decide (ch = Char.ofNat 10))
      (body ++ Char.ofNat 10 :: rest) = body := by
  induction body with
  | nil => simp [List.takeWhile]
  | cons a tl ih =>
    have ha := hb a (List.mem_cons_self _ _)
    simp only [List.cons_append, List.takeWhile_cons, ha, decide_False,
      Bool.not_false, if_true]
    rw [ih (fun ch h => hb ch (List.mem_cons_of_mem _ h))]

theorem dropWhile_append_nl (body rest : List Char)
    (hb : ∀ ch ∈ body, ch ≠ Char.ofNat 10) :
    List.dropWhile (fun ch => !decide (ch = Char.ofNat 10))
      (body ++ Char.ofNat 10 :: rest) = Char.ofNat 10 :: rest := by
  induction body with
  | nil => simp [List.dropWhile]
  | cons a tl ih =>
    have ha := hb a (List.mem_cons_self _ _)
    simp only [List.cons_append, List.dropWhile_cons]
    rw [ih (fun ch h => hb ch (List.mem_cons_of_mem _ h))]
    simp [ha]

/-- Skipping leading whitespace: each `'\n'` bumps `line_` and sets
`seen_newline`. -/
theorem next_ws_skip (ws : List Char)
    (hws : ∀ ch ∈ ws, ch = ' ' ∨ ch = Char.ofNat 10 ∨ ch = Char.ofNat 13 ∨
      ch = Char.ofNat 9) :
    ∀ (input : List Char) (line : Nat) (attr doc : String) (seenNl : Bool),
      next (ws ++ input) line attr doc seenNl =
        next input (line + ws.count (Char.ofNat 10)) attr doc
          (seenNl || ws.any (fun ch => ch = Char.ofNat 10)) := by
  induction ws with
  | nil => intro input line attr doc seenNl; simp
  | cons c tl ih =>
    intro input line attr doc seenNl
    have htl := fun ch h => hws ch (List.mem_cons_of_mem _ h)
    rcases hws c (List.mem_cons_self _ _) with h | h | h | h <;> subst h <;>
      rw [List.cons_append]
    · rw [show next (' ' :: (tl ++ input)) line attr doc seenNl =
          next (tl ++ input) line attr doc seenNl from by simp +decide [next]]
      rw [ih htl]
      simp +decide [List.count_cons]
    · rw [show next (Char.ofNat 10 :: (tl ++ input)) line attr doc seenNl =
          next (tl ++ input) (line + 1) attr doc true from by simp +decide [next]]
      rw [ih htl]
      have hc : (Char.ofNat 10 :: tl).count (Char.ofNat 10) =
          tl.count (Char.ofNat 10) + 1 := by simp +decide [List.count_cons]
      rw [hc, show line + (tl.count (Char.ofNat 10) + 1) =
        line + 1 + tl.count (Char.ofNat 10) from by omega]
      simp
    · rw [show next (Char.ofNat 13 :: (tl ++ input)) line attr doc seenNl =
          next (tl ++ input) line attr doc seenNl from by simp +decide [next]]
      rw [ih htl]
      simp +decide [List.count_cons]
    · rw [show next (Char.ofNat 9 :: (tl ++ input)) line attr doc seenNl =
          next (tl ++ input) line attr doc seenNl from by simp +decide [next]]
      rw [ih htl]
      simp +decide [List.count_cons]

/-- A `///` comment with `seen_newline` set: the text after `///` (up to but
not including the newline) is appended to `doc_comment_` and the scan
continues past the terminating newline. -/
theorem next_doc_step (body rest : List Char) (line : Nat) (attr doc : String)
    (hb : ∀ ch ∈ body, ch ≠ Char.ofNat 10) :
    next ('/' :: '/' :: '/' :: body ++ Char.ofNat 10 :: rest) line attr doc true =
      next rest (line + 1) attr (doc ++ String.mk body) true := by
  simp +decide [next, takeWhile_append_nl body rest hb,
    dropWhile_append_nl body rest hb]

/-- A `///` comment with `seen_newline` unset errors. -/
theorem next_doc_err (tl : List Char) (line : Nat) (attr doc : String) :
    next ('/' :: '/' :: '/' :: tl) line attr doc false =
      .error "a documentation comment should be on a line on its own" := by
  simp +decide [next]

/-- **C8**: a `///` documentation comment preceded (since the start of the
`Next` call) by whitespace containing a newline is accepted, its text
accumulated into `doc_comment_` and `line_` advanced per newline; a `///`
preceded only by non-newline whitespace raises
"a documentation comment should be on a line on its own". -/
theorem c8_doc_comment_own_line :
    (∀ (ws body rest : List Char) (line : Nat) (attr doc : String),
      (∀ ch ∈ ws, ch = ' ' ∨ ch = Char.ofNat 10 ∨ ch = Char.ofNat 13 ∨
        ch = Char.ofNat 9) →
      Char.ofNat 10 ∈ ws →
      (∀ ch ∈ body, ch ≠ Char.ofNat 10) →
      next (ws ++ ('/' :: '/' :: '/' :: body ++ Char.ofNat 10 :: rest))
          line attr doc false =
        next rest (line + ws.count (Char.ofNat 10) + 1) attr
          (doc ++ String.mk body) true) ∧
    (∀ (ws tl : List Char) (line : Nat) (attr doc : String),
      (∀ ch ∈ ws, ch = ' ' ∨ ch = Char.ofNat 13 ∨ ch = Char.ofNat 9) →
      next (ws ++ ('/' :: '/' :: '/' :: tl)) line attr doc false =
        .error "a documentation comment should be on a line on its own") := by
  constructor
  · intro ws body rest line attr doc hws hnl hb
    rw [next_ws_skip ws hws]
    have hany : ws.any (fun ch => ch = Char.ofNat 10) = true :=
      List.any_eq_true.mpr ⟨_, hnl, by simp⟩
    rw [hany]
    simp only [Bool.or_true]
    rw [next_doc_step body rest _ attr doc hb]
  · intro ws tl line attr doc hws
    rw [next_ws_skip ws (fun ch h => match hws ch h with
      | Or.inl h1 => Or.inl h1
      | Or.inr (Or.inl h1) => Or.inr (Or.inr (Or.inl h1))
      | Or.inr (Or.inr h1) => Or.inr (Or.inr (Or.inr h1)))]
    have hany : ws.any (fun ch => ch = Char.ofNat 10) = false := by
      simp only [List.any_eq_false]
      intro ch hch
      rcases hws ch hch with h1 | h1 | h1 <;> subst h1 <;> decide
    rw [hany]
    simp only [Bool.or_false]
    exact next_doc_err tl _ attr doc

/-- Witness for C8: `"\nhi\n"` as a doc comment on its own line is
accumulated; `" ///hi"` after only a space errors. -/
theorem c8_doc_comment_own_line_witness :
    next ([Char.ofNat 10] ++ ('/' :: '/' :: '/' :: ['h', 'i'] ++
        Char.ofNat 10 :: ['x'])) 1 "" "" false =
      next ['x'] (1 + [Char.ofNat 10].count (Char.ofNat 10) + 1) ""
        ("" ++ String.mk ['h', 'i']) true ∧
    next ([' '] ++ ('/' :: '/' :: '/' :: ['h', 'i'])) 1 "a" "" false =
      .error "a documentation comment should be on a line on its own" :=
  ⟨c8_doc_comment_own_line.1 [Char.ofNat 10] ['h', 'i'] ['x'] 1 "" ""
      (by intro ch hch; simp at hch; subst hch; exact Or.inr (Or.inl rfl))
      (by simp)
      (by intro ch hch; simp at hch; rcases hch with rfl | rfl <;> decide),
   c8_doc_comment_own_line.2 [' '] ['h', 'i'] 1 "a" ""
      (by intro ch hch; simp at hch; subst hch; exact Or.inl rfl)⟩

end Flat
